import Mathlib

/-!
SHA-512 engine of `rsa_cpp` (`sha512.cpp`)

A shallow embedding of the hash engine: the word loader
`copy_arr_bytes_into_arr_64_bits`, the block assembler `update`, the
compressor `compress` and the digest extractor `digest`.

Conventions of the embedding.

* A `std::uint64_t` is a `Nat` below `2 ^ 64`; every operation that can leave
  that range is reduced `% 2 ^ 64`.  A `std::size_t` is 64 bits wide as well.
* A `std::uint8_t` is a `Nat` below `256`.
* A `std::array` is a `List Nat`; a pointer into a buffer is the list of the
  elements from the pointed one on (`&message[i]` is `message.drop i`).
* The two `for (;;)` loops are recursive functions on an iteration budget and
  return `none` when the budget is used up before the loop breaks.
* `update` hands blocks to `SHA512_compress`, which is declared in the header
  and is a parameter here together with the type of the hash state it acts on.
-/

namespace sha512

/-! ## Machine words -/

/-- The modulus of `std::uint64_t` and of `std::size_t`. -/
def word_modulus : Nat := 2 ^ 64

/-- Unsigned 64-bit subtraction, wrapping around. -/
def sub64 (a b : Nat) : Nat := (a + word_modulus - b % word_modulus) % word_modulus

/-- Unsigned 64-bit addition, wrapping around. -/
def add64 (a b : Nat) : Nat := (a + b) % word_modulus

/-- The block size in bytes (`blocks_size_bytes`, 1024 bits). -/
def blocks_size_bytes : Nat := 128

/-! ## boost::endian and the standard algorithms used by the engine -/

/-- `boost::endian::load_big_u64(p)`: the eight bytes `p[0..7]` read as one
big-endian 64-bit word. -/
def load_big_u64 (p : List Nat) : Nat :=
  p.getD 0 0 * 2 ^ 56 + p.getD 1 0 * 2 ^ 48 + p.getD 2 0 * 2 ^ 40 + p.getD 3 0 * 2 ^ 32
    + p.getD 4 0 * 2 ^ 24 + p.getD 5 0 * 2 ^ 16 + p.getD 6 0 * 2 ^ 8 + p.getD 7 0

/-- `boost::endian::store_big_u64(buf + off, v)`: writes the eight big-endian
bytes of `v` at `buf[off .. off + 7]`. -/
def store_big_u64 (buf : List Nat) (off : Nat) (v : Nat) : List Nat :=
  (List.range 8).foldl (fun b j => b.set (off + j) ((v >>> (8 * (7 - j))) % 256)) buf

/-- `std::fill(arr.begin() + first, arr.end(), v)`. -/
def fill_from (arr : List Nat) (first : Nat) (v : Nat) : List Nat :=
  arr.take first ++ List.replicate (arr.length - first) v

/-- `std::copy_n(src, n, dst.begin())`. -/
def copy_n (src : List Nat) (n : Nat) (dst : List Nat) : List Nat :=
  src.take n ++ dst.drop n

/-! ## Word loader -/

/-- The `for (;;)` loop of `copy_arr_bytes_into_arr_64_bits`, one iteration per
unit of `fuel`; `none` when the budget ends before the loop breaks. -/
def copy_loop (bytes : List Nat) (num_bytes : Nat) :
    Nat → Nat → Nat → List Nat → Option (List Nat)
  | 0, _, _, _ => none
  | fuel + 1, index_byte, index_arr, arr64 =>
    let bytes_remaining := sub64 num_bytes index_byte
    let arr1 :=
      if bytes_remaining ≥ 8 then
        arr64.set index_arr (load_big_u64 (bytes.drop index_byte))
      else arr64
    let arr2 :=
      if bytes_remaining < 8 then
        let emergency_buffer := List.replicate 8 0
        let emergency_buffer := copy_n (bytes.drop index_byte) bytes_remaining emergency_buffer
        arr1.set index_arr (load_big_u64 emergency_buffer)
      else arr1
    if bytes_remaining ≤ 8 then some arr2
    else copy_loop bytes num_bytes fuel (add64 index_byte 8) (add64 index_arr 1) arr2

/-- `sha512::copy_arr_bytes_into_arr_64_bits(bytes, num_bytes, arr64)`: the
destination after the call.  The loop is given `num_bytes / 8 + 1` iterations. -/
def copy_arr_bytes_into_arr_64_bits (bytes : List Nat) (num_bytes : Nat)
    (arr64 : List Nat) : Option (List Nat) :=
  if num_bytes > 0 then copy_loop bytes num_bytes (num_bytes / 8 + 1) 0 0 arr64
  else some arr64

/-! ## Block assembler -/

/-- What the block loop of `update` leaves behind when it breaks. -/
structure LoopExit (σ : Type) where
  /-- The value of `current_hash_values`. -/
  current_hash_values : σ
  /-- The value of `current_block`. -/
  current_block : List Nat
  /-- The value of `bit_postponed`. -/
  bit_postponed : Bool
  /-- The value of `index_of_terminating_1_in_64bit_arr`. -/
  index_of_terminating_1_in_64bit_arr : Nat

/-- The `for (;;)` loop of `update`, one iteration per unit of `fuel`; `none`
when the budget ends before the loop breaks. -/
def update_loop {σ : Type} (SHA512_compress : List Nat → σ → σ)
    (message : List Nat) (len : Nat) :
    Nat → Nat → σ → List Nat → Option (LoopExit σ)
  | 0, _, _, _ => none
  | fuel + 1, message_index, current_hash_values, current_block =>
    let bytes_remaining := sub64 len message_index
    let full : Option (σ × List Nat) :=
      if bytes_remaining ≥ blocks_size_bytes then
        (copy_arr_bytes_into_arr_64_bits (message.drop message_index) blocks_size_bytes
            current_block).map
          fun blk => (SHA512_compress blk current_hash_values, blk)
      else some (current_hash_values, current_block)
    full.bind fun (current_hash_values, current_block) =>
      if bytes_remaining = blocks_size_bytes then
        some ⟨current_hash_values, current_block, true, 0⟩
      else if bytes_remaining < blocks_size_bytes then
        let index_of_terminating_1_in_current_block := bytes_remaining / 8
        let current_block := fill_from current_block index_of_terminating_1_in_current_block 0
        (copy_arr_bytes_into_arr_64_bits (message.drop message_index) bytes_remaining
            current_block).map
          fun current_block =>
            let index_byte := bytes_remaining % 8
            let current_block :=
              current_block.set index_of_terminating_1_in_current_block
                (current_block.getD index_of_terminating_1_in_current_block 0
                  ||| ((1 <<< (63 - index_byte * 8)) % word_modulus))
            ⟨current_hash_values, current_block, false, index_of_terminating_1_in_current_block⟩
      else
        update_loop SHA512_compress message len fuel (add64 message_index blocks_size_bytes)
          current_hash_values current_block

/-- `sha512::update(message, len)`: the hash state and the working block after
the call, from the hash state and working block before it.  The block loop is
given `len / 128 + 1` iterations. -/
def update {σ : Type} (SHA512_compress : List Nat → σ → σ)
    (message : List Nat) (len : Nat) (current_hash_values : σ) (current_block : List Nat) :
    Option (σ × List Nat) :=
  (update_loop SHA512_compress message len (len / blocks_size_bytes + 1) 0
      current_hash_values current_block).map
    fun ex =>
      let (current_hash_values, current_block) :=
        if ex.bit_postponed then
          let current_block := fill_from ex.current_block 0 0
          (ex.current_hash_values, current_block.set 0 ((1 <<< 63) % word_modulus))
        else if ex.index_of_terminating_1_in_64bit_arr ≥ ex.current_block.length - 2 then
          (SHA512_compress ex.current_block ex.current_hash_values,
            fill_from ex.current_block 0 0)
        else (ex.current_hash_values, ex.current_block)
      let current_block :=
        current_block.set (current_block.length - 1) (((len % word_modulus) <<< 3) % word_modulus)
      let current_block :=
        current_block.set (current_block.length - 2) ((len % word_modulus) >>> (64 - 3))
      (SHA512_compress current_block current_hash_values, current_block)

/-! ## Compressor -/

/-- Modelled from the spec: the 64-bit right rotation used by the sigma
functions of the header `sha512.hpp`, as FIPS 180-4 defines `ROTR`. -/
def rotr64 (x n : Nat) : Nat :=
  ((x >>> n) ||| ((x <<< (64 - n)) % word_modulus)) % word_modulus

/-- Modelled from the spec: `sha512::lowercase_sigma0` of the header
`sha512.hpp`, the function sigma0 of FIPS 180-4 for SHA-512. -/
def lowercase_sigma0 (x : Nat) : Nat := rotr64 x 1 ^^^ rotr64 x 8 ^^^ (x >>> 7)

/-- Modelled from the spec: `sha512::lowercase_sigma1` of the header
`sha512.hpp`, the function sigma1 of FIPS 180-4 for SHA-512. -/
def lowercase_sigma1 (x : Nat) : Nat := rotr64 x 19 ^^^ rotr64 x 61 ^^^ (x >>> 6)

/-- Modelled from the spec: `sha512::uppercase_sigma0` of the header
`sha512.hpp`, the function Sigma0 of FIPS 180-4 for SHA-512. -/
def uppercase_sigma0 (x : Nat) : Nat := rotr64 x 28 ^^^ rotr64 x 34 ^^^ rotr64 x 39

/-- Modelled from the spec: `sha512::uppercase_sigma1` of the header
`sha512.hpp`, the function Sigma1 of FIPS 180-4 for SHA-512. -/
def uppercase_sigma1 (x : Nat) : Nat := rotr64 x 14 ^^^ rotr64 x 18 ^^^ rotr64 x 41

/-- Modelled from the spec: `sha512::choice` of the header `sha512.hpp`, the
bitwise choose `Ch` of FIPS 180-4 on 64-bit words. -/
def choice (x y z : Nat) : Nat := (x &&& y) ^^^ (((word_modulus - 1) ^^^ x) &&& z)

/-- Modelled from the spec: `sha512::majority` of the header `sha512.hpp`, the
bitwise majority `Maj` of FIPS 180-4. -/
def majority (x y z : Nat) : Nat := (x &&& y) ^^^ (x &&& z) ^^^ (y &&& z)

/-- Modelled from the spec: the hash state of a freshly constructed engine (set
in the header `sha512.hpp`), the eight SHA-512 initial hash values of
FIPS 180-4. -/
def initial_hash_values : List Nat :=
  [0x6a09e667f3bcc908, 0xbb67ae8584caa73b, 0x3c6ef372fe94f82b, 0xa54ff53a5f1d36f1,
   0x510e527fade682d1, 0x9b05688c2b3e6c1f, 0x1f83d9abfb41bd6b, 0x5be0cd19137e2179]

/-- The round-constant table `constants` of `compress`. -/
def constants : List Nat :=
  0x428a2f98d728ae22 :: 0x7137449123ef65cd :: 0xb5c0fbcfec4d3b2f :: 0xe9b5dba58189dbbc :: 0x3956c25bf348b538 ::
  0x59f111f1b605d019 :: 0x923f82a4af194f9b :: 0xab1c5ed5da6d8118 :: 0xd807aa98a3030242 :: 0x12835b0145706fbe ::
  0x243185be4ee4b28c :: 0x550c7dc3d5ffb4e2 :: 0x72be5d74f27b896f :: 0x80deb1fe3b1696b1 :: 0x9bdc06a725c71235 ::
  0xc19bf174cf692694 :: 0xe49b69c19ef14ad2 :: 0xefbe4786384f25e3 :: 0x0fc19dc68b8cd5b5 :: 0x240ca1cc77ac9c65 ::
  0x2de92c6f592b0275 :: 0x4a7484aa6ea6e483 :: 0x5cb0a9dcbd41fbd4 :: 0x76f988da831153b5 :: 0x983e5152ee66dfab ::
  0xa831c66d2db43210 :: 0xb00327c898fb213f :: 0xbf597fc7beef0ee4 :: 0xc6e00bf33da88fc2 :: 0xd5a79147930aa725 ::
  0x06ca6351e003826f :: 0x142929670a0e6e70 :: 0x27b70a8546d22ffc :: 0x2e1b21385c26c926 :: 0x4d2c6dfc5ac42aed ::
  0x53380d139d95b3df :: 0x650a73548baf63de :: 0x766a0abb3c77b2a8 :: 0x81c2c92e47edaee6 :: 0x92722c851482353b ::
  0xa2bfe8a14cf10364 :: 0xa81a664bbc423001 :: 0xc24b8b70d0f89791 :: 0xc76c51a30654be30 :: 0xd192e819d6ef5218 ::
  0xd69906245565a910 :: 0xf40e35855771202a :: 0x106aa07032bbd1b8 :: 0x19a4c116b8d2d0c8 :: 0x1e376c085141ab53 ::
  0x2748774cdf8eeb99 :: 0x34b0bcb5e19b48a8 :: 0x391c0cb3c5c95a63 :: 0x4ed8aa4ae3418acb :: 0x5b9cca4f7763e373 ::
  0x682e6ff3d6b2b8a3 :: 0x748f82ee5defb2fc :: 0x78a5636f43172f60 :: 0x84c87814a1f0ab72 :: 0x8cc702081a6439ec ::
  0x90befffa23631e28 :: 0xa4506cebde82bde9 :: 0xbef9a3f7b2c67915 :: 0xc67178f2e372532b :: 0xca273eceea26619c ::
  0xd186b8c721c0c207 :: 0xeada7dd6cde0eb1e :: 0xf57d4f7fee6ed178 :: 0x06f067aa72176fba :: 0x0a637dc5a2c898a6 ::
  0x113f9804bef90dae :: 0x1b710b35131c471b :: 0x28db77f523047d84 :: 0x32caab7b40c72493 :: 0x3c9ebe0a15c9bebc ::
  0x431d67c49c100d4c :: 0x4cc5d4becb3e42b6 :: 0x597f299cfc657e2a :: 0x5fcb6fab3ad6faec :: 0x6c44198c4a475817 ::
  []

/-- The message schedule `message_schedule` of `compress`: the block copied to
slots 0..15 (the other slots are not yet written and are read only after they
are), then slots 16..79 filled in index order. -/
def message_schedule (m_message_block : List Nat) : List Nat :=
  (List.range' 16 64).foldl
    (fun ms word_index =>
      ms.set word_index
        (add64 (add64 (add64 (lowercase_sigma1 (ms.getD (word_index - 2) 0))
                  (ms.getD (word_index - 7) 0))
                (lowercase_sigma0 (ms.getD (word_index - 15) 0)))
          (ms.getD (word_index - 16) 0)))
    (copy_n m_message_block 16 (List.replicate 80 0))

/-- The working variables `a, b, c, d, e, f, g, h` of `compress`. -/
structure WorkingVars where
  /-- Variable `a`. -/
  a : Nat
  /-- Variable `b`. -/
  b : Nat
  /-- Variable `c`. -/
  c : Nat
  /-- Variable `d`. -/
  d : Nat
  /-- Variable `e`. -/
  e : Nat
  /-- Variable `f`. -/
  f : Nat
  /-- Variable `g`. -/
  g : Nat
  /-- Variable `h`. -/
  h : Nat
deriving DecidableEq, Repr

/-- One pass through the body of the 80-round loop of `compress`. -/
def round (ms : List Nat) (v : WorkingVars) (word_index : Nat) : WorkingVars :=
  let T1 := add64 (add64 (add64 (add64 (uppercase_sigma1 v.e) (choice v.e v.f v.g)) v.h)
              (constants.getD word_index 0)) (ms.getD word_index 0)
  let T2 := add64 (uppercase_sigma0 v.a) (majority v.a v.b v.c)
  { h := v.g, g := v.f, f := v.e, e := add64 v.d T1, d := v.c, c := v.b, b := v.a,
    a := add64 T1 T2 }

/-- `sha512::compress()`: the hash values `m_hash_values` after the call, from
the block `m_message_block` and the hash values before it. -/
def compress (m_message_block : List Nat) (m_hash_values : List Nat) : List Nat :=
  let ms := message_schedule m_message_block
  let v0 : WorkingVars :=
    { a := m_hash_values.getD 0 0, b := m_hash_values.getD 1 0, c := m_hash_values.getD 2 0,
      d := m_hash_values.getD 3 0, e := m_hash_values.getD 4 0, f := m_hash_values.getD 5 0,
      g := m_hash_values.getD 6 0, h := m_hash_values.getD 7 0 }
  let v := (List.range 80).foldl (round ms) v0
  let hv := m_hash_values.set 0 (add64 (m_hash_values.getD 0 0) v.a)
  let hv := hv.set 1 (add64 (hv.getD 1 0) v.b)
  let hv := hv.set 2 (add64 (hv.getD 2 0) v.c)
  let hv := hv.set 3 (add64 (hv.getD 3 0) v.d)
  let hv := hv.set 4 (add64 (hv.getD 4 0) v.e)
  let hv := hv.set 5 (add64 (hv.getD 5 0) v.f)
  let hv := hv.set 6 (add64 (hv.getD 6 0) v.g)
  hv.set 7 (add64 (hv.getD 7 0) v.h)

/-! ## Digest extractor -/

/-- `sha512::digest()`: the 64-byte array `final_hash` (its bytes are not yet
written when the loop starts, and each is written before the array is
returned), filled by one `store_big_u64` per hash word in index order. -/
def digest (current_hash_values : List Nat) : List Nat :=
  (List.range current_hash_values.length).foldl
    (fun final_hash index =>
      store_big_u64 final_hash (index * 8) (current_hash_values.getD index 0))
    (List.replicate 64 0)

/-! ## Reading a byte span as words -/

/-- Byte `k` of the span of `n` bytes starting at `bytes`, where a position at
or beyond `n` counts as zero. -/
def span_byte (bytes : List Nat) (n k : Nat) : Nat :=
  if k < n then bytes.getD k 0 else 0

/-- The big-endian value of bytes `8 * i .. 8 * i + 7` of the span of `n` bytes
starting at `bytes`, positions at or beyond `n` counting as zero. -/
def be_word (bytes : List Nat) (n i : Nat) : Nat :=
  span_byte bytes n (8 * i) * 2 ^ 56 + span_byte bytes n (8 * i + 1) * 2 ^ 48
    + span_byte bytes n (8 * i + 2) * 2 ^ 40 + span_byte bytes n (8 * i + 3) * 2 ^ 32
    + span_byte bytes n (8 * i + 4) * 2 ^ 24 + span_byte bytes n (8 * i + 5) * 2 ^ 16
    + span_byte bytes n (8 * i + 6) * 2 ^ 8 + span_byte bytes n (8 * i + 7)

/-! ## The blocks of a message, in closed form -/

/-- The `i`-th full data block of a message: the 16 big-endian words of its
bytes `128 * i .. 128 * i + 127`. -/
def data_block (message : List Nat) (i : Nat) : List Nat :=
  (List.range 16).map fun j => load_big_u64 (message.drop (128 * i + 8 * j))

/-- The block assembled from the tail of `len mod 128` bytes left after the
full blocks, before any length field is written: the big-endian words of the
tail, zero beyond it, with the terminating bit set in word `(len mod 128) / 8`. -/
def tail_block (message : List Nat) (len : Nat) : List Nat :=
  let t := len % 128
  let tail := message.drop (len - t)
  (List.range 16).map fun j =>
    if j = t / 8 then be_word tail t j ||| 2 ^ (63 - 8 * (t % 8)) else be_word tail t j

/-- A block with the length field of a message of `len` bytes written into its
words 15 and 14. -/
def with_length (block : List Nat) (len : Nat) : List Nat :=
  (block.set 15 ((len <<< 3) % 2 ^ 64)).set 14 (len >>> 61)

/-- The blocks that close the message: the tail block carrying the length field
when the terminating bit lies before word 14, else the tail block followed by a
zero block carrying the length field. -/
def final_blocks (message : List Nat) (len : Nat) : List (List Nat) :=
  if len % 128 / 8 ≥ 14 then
    [tail_block message len, with_length (List.replicate 16 0) len]
  else [with_length (tail_block message len) len]

/-- All blocks of a message of `len` bytes: the `len / 128` full data blocks in
order, then the closing blocks. -/
def message_blocks (message : List Nat) (len : Nat) : List (List Nat) :=
  (List.range (len / 128)).map (data_block message) ++ final_blocks message len

/-- A compressor that records the blocks it is given, in order of the calls,
in place of a hash state. -/
def record_block (block : List Nat) (calls : List (List Nat)) : List (List Nat) :=
  calls ++ [block]

/-! ## The SHA-512 padding, as the standard words it -/

/-- The number `v` written as a big-endian integer of `width` bytes. -/
def be_bytes (width v : Nat) : List Nat :=
  (List.range width).map fun j => v / 256 ^ (width - 1 - j) % 256

/-- The padded message: the message, the byte `0x80`, `k` zero bytes, and the
bit length `8 * len` as a 16-byte big-endian integer. -/
def padded_message (m : List Nat) (k : Nat) : List Nat :=
  m ++ [0x80] ++ List.replicate k 0 ++ be_bytes 16 (8 * m.length)

/-- The big-endian value of a byte string. -/
def be_value (bs : List Nat) : Nat :=
  bs.foldl (fun acc b => acc * 256 + b) 0

/-- A byte string cut into 128-byte blocks, each parsed as 16 big-endian 64-bit
words. -/
def parse_blocks (bytes : List Nat) : List (List Nat) :=
  (List.range (bytes.length / 128)).map fun i =>
    (List.range 16).map fun j => be_value ((bytes.drop (128 * i + 8 * j)).take 8)

/-! ## The message schedule and the rounds, as the standard words them -/

/-- The value the schedule recurrence gives slot `i` of a schedule `W`:
`sigma1 (W[i-2]) + W[i-7] + sigma0 (W[i-15]) + W[i-16]` modulo `2 ^ 64`. -/
def schedule_recurrence (W : List Nat) (i : Nat) : Nat :=
  (lowercase_sigma1 (W.getD (i - 2) 0) + W.getD (i - 7) 0
    + lowercase_sigma0 (W.getD (i - 15) 0) + W.getD (i - 16) 0) % 2 ^ 64

/-- One round of the compression function as the standard words it, on the
working variables `(a, b, c, d, e, f, g, h)`:
`T1 = Sigma1 (e) + Ch (e, f, g) + h + K[i] + W[i]`,
`T2 = Sigma0 (a) + Maj (a, b, c)`,
`(a, b, c, d, e, f, g, h) <- (T1 + T2, a, b, c, d + T1, e, f, g)`,
all sums modulo `2 ^ 64`. -/
def spec_round (K W : List Nat) (i : Nat) (v : WorkingVars) : WorkingVars :=
  let T1 := (uppercase_sigma1 v.e + choice v.e v.f v.g + v.h + K.getD i 0 + W.getD i 0) % 2 ^ 64
  let T2 := (uppercase_sigma0 v.a + majority v.a v.b v.c) % 2 ^ 64
  ⟨(T1 + T2) % 2 ^ 64, v.a, v.b, v.c, (v.d + T1) % 2 ^ 64, v.e, v.f, v.g⟩

/-- The working variables after the rounds `0 .. n - 1`, applied in order from
the start value `v0`. -/
def spec_rounds (K W : List Nat) (v0 : WorkingVars) : Nat → WorkingVars
  | 0 => v0
  | n + 1 => spec_round K W n (spec_rounds K W v0 n)

/-! ## The primes behind the round constants -/

/-- The first 80 primes, `2 .. 409`, in increasing order. -/
def first_primes : List Nat :=
  [2, 3, 5, 7, 11, 13, 17, 19, 23, 29,
   31, 37, 41, 43, 47, 53, 59, 61, 67, 71,
   73, 79, 83, 89, 97, 101, 103, 107, 109, 113,
   127, 131, 137, 139, 149, 151, 157, 163, 167, 173,
   179, 181, 191, 193, 197, 199, 211, 223, 227, 229,
   233, 239, 241, 251, 257, 263, 269, 271, 277, 281,
   283, 293, 307, 311, 313, 317, 331, 337, 347, 349,
   353, 359, 367, 373, 379, 383, 389, 397, 401, 409]

/-- The prime of index `i`, counting from 0: `nth_prime 0 = 2`. -/
def nth_prime (i : Nat) : Nat := first_primes.getD i 0

/-- The integer part of the cube root of `p`: the number of `c` in `1 .. p` with
`c ^ 3 ≤ p`. -/
def floor_cbrt (p : Nat) : Nat :=
  ((List.range (p + 1)).filter fun c => decide (1 ≤ c ∧ c ^ 3 ≤ p)).length

/-! ## The engine with every access checked

The same code once more, where each subtraction, each read of the message, each
read or write of a word array and the shift of the terminating bit is guarded:
the result is `none` as soon as a subtraction would wrap, an index is out of
range or the shift amount leaves `7 .. 63`. -/

/-- The loop of `copy_arr_bytes_into_arr_64_bits` with its accesses checked:
`num_bytes - index_byte` does not wrap, the bytes read lie inside `bytes`, the
word written lies inside `arr64`, and the copy into `emergency_buffer` is of
fewer than 8 bytes. -/
def copy_loop_checked (bytes : List Nat) (num_bytes : Nat) :
    Nat → Nat → Nat → List Nat → Option (List Nat)
  | 0, _, _, _ => none
  | fuel + 1, index_byte, index_arr, arr64 =>
    if index_byte ≤ num_bytes then
      let bytes_remaining := sub64 num_bytes index_byte
      let arr1 : Option (List Nat) :=
        if bytes_remaining ≥ 8 then
          if index_byte + 8 ≤ bytes.length ∧ index_arr < arr64.length then
            some (arr64.set index_arr (load_big_u64 (bytes.drop index_byte)))
          else none
        else some arr64
      arr1.bind fun arr1 =>
        let arr2 : Option (List Nat) :=
          if bytes_remaining < 8 then
            if index_byte + bytes_remaining ≤ bytes.length ∧ bytes_remaining < 8
                ∧ index_arr < arr1.length then
              let emergency_buffer := List.replicate 8 0
              let emergency_buffer :=
                copy_n (bytes.drop index_byte) bytes_remaining emergency_buffer
              some (arr1.set index_arr (load_big_u64 emergency_buffer))
            else none
          else some arr1
        arr2.bind fun arr2 =>
          if bytes_remaining ≤ 8 then some arr2
          else
            copy_loop_checked bytes num_bytes fuel (add64 index_byte 8) (add64 index_arr 1) arr2
    else none

/-- `copy_arr_bytes_into_arr_64_bits` with its accesses checked. -/
def copy_arr_bytes_into_arr_64_bits_checked (bytes : List Nat) (num_bytes : Nat)
    (arr64 : List Nat) : Option (List Nat) :=
  if num_bytes > 0 then copy_loop_checked bytes num_bytes (num_bytes / 8 + 1) 0 0 arr64
  else some arr64

/-- The block loop of `update` with its accesses checked: `len - message_index`
does not wrap, the word loader stays inside the message and the block, the
index of the terminating bit lies inside the block, and the shift amount
`63 - index_byte * 8`, an `int`, lies in `7 .. 63`. -/
def update_loop_checked {σ : Type} (SHA512_compress : List Nat → σ → σ)
    (message : List Nat) (len : Nat) :
    Nat → Nat → σ → List Nat → Option (LoopExit σ)
  | 0, _, _, _ => none
  | fuel + 1, message_index, current_hash_values, current_block =>
    if message_index ≤ len then
      let bytes_remaining := sub64 len message_index
      let full : Option (σ × List Nat) :=
        if bytes_remaining ≥ blocks_size_bytes then
          (copy_arr_bytes_into_arr_64_bits_checked (message.drop message_index)
              blocks_size_bytes current_block).map
            fun blk => (SHA512_compress blk current_hash_values, blk)
        else some (current_hash_values, current_block)
      full.bind fun (current_hash_values, current_block) =>
        if bytes_remaining = blocks_size_bytes then
          some ⟨current_hash_values, current_block, true, 0⟩
        else if bytes_remaining < blocks_size_bytes then
          let index_of_terminating_1_in_current_block := bytes_remaining / 8
          if index_of_terminating_1_in_current_block < current_block.length then
            let current_block :=
              fill_from current_block index_of_terminating_1_in_current_block 0
            (copy_arr_bytes_into_arr_64_bits_checked (message.drop message_index)
                bytes_remaining current_block).bind
              fun current_block =>
                let index_byte := bytes_remaining % 8
                if 7 ≤ (63 : Int) - index_byte * 8 ∧ (63 : Int) - index_byte * 8 ≤ 63 then
                  let current_block :=
                    current_block.set index_of_terminating_1_in_current_block
                      (current_block.getD index_of_terminating_1_in_current_block 0
                        ||| ((1 <<< (63 - index_byte * 8)) % word_modulus))
                  some ⟨current_hash_values, current_block, false,
                    index_of_terminating_1_in_current_block⟩
                else none
          else none
        else
          update_loop_checked SHA512_compress message len fuel
            (add64 message_index blocks_size_bytes) current_hash_values current_block
    else none

/-- `sha512::update` with its accesses checked; after the loop the words 0,
`size - 1` and `size - 2` of `current_block` are written, which needs a block
of at least 2 words. -/
def update_checked {σ : Type} (SHA512_compress : List Nat → σ → σ)
    (message : List Nat) (len : Nat) (current_hash_values : σ) (current_block : List Nat) :
    Option (σ × List Nat) :=
  (update_loop_checked SHA512_compress message len (len / blocks_size_bytes + 1) 0
      current_hash_values current_block).bind
    fun ex =>
      if 2 ≤ ex.current_block.length then
        let (current_hash_values, current_block) :=
          if ex.bit_postponed then
            let current_block := fill_from ex.current_block 0 0
            (ex.current_hash_values, current_block.set 0 ((1 <<< 63) % word_modulus))
          else if ex.index_of_terminating_1_in_64bit_arr ≥ ex.current_block.length - 2 then
            (SHA512_compress ex.current_block ex.current_hash_values,
              fill_from ex.current_block 0 0)
          else (ex.current_hash_values, ex.current_block)
        let current_block :=
          current_block.set (current_block.length - 1)
            (((len % word_modulus) <<< 3) % word_modulus)
        let current_block :=
          current_block.set (current_block.length - 2) ((len % word_modulus) >>> (64 - 3))
        some (SHA512_compress current_block current_hash_values, current_block)
      else none

end sha512

namespace sha512

/-! ## The word loader: one word per 8-byte chunk -/

theorem getD_drop_zero (l : List Nat) (i j : Nat) : (l.drop i).getD j 0 = l.getD (i + j) 0 := by
  simp [List.getD_eq_getElem?_getD, List.getElem?_drop]

theorem sub64_of_le {a b : Nat} (hb : b ≤ a) (ha : a < 2 ^ 64) : sub64 a b = a - b := by
  unfold sub64 word_modulus
  omega

theorem add64_of_lt {a b : Nat} (h : a + b < 2 ^ 64) : add64 a b = a + b := by
  unfold add64 word_modulus
  omega

theorem load_big_u64_full (bytes : List Nat) (n k : Nat) (h : 8 * k + 8 ≤ n) :
    load_big_u64 (bytes.drop (8 * k)) = be_word bytes n k := by
  simp only [load_big_u64, be_word, span_byte, getD_drop_zero]
  iterate 8 rw [if_pos (by omega)]
  simp

theorem getD_emergency_buffer (bytes : List Nat) (p r j : Nat) (hr : r < 8) :
    (copy_n (bytes.drop p) r (List.replicate 8 0)).getD j 0
      = if j < r then bytes.getD (p + j) 0 else 0 := by
  simp only [copy_n, List.getD_eq_getElem?_getD, List.getElem?_append, List.length_take,
    List.length_drop, List.getElem?_take, List.getElem?_drop, List.getElem?_replicate]
  by_cases h1 : j < r
  · by_cases h2 : j < bytes.length - p
    · simp [h1, h2]
    · have h3 : bytes.length ≤ p + j := by omega
      simp [h1, h2, List.getElem?_eq_none h3]
      split <;> simp
  · have h4 : ¬ j < min r (bytes.length - p) := by omega
    simp only [h1, h4, if_false]
    split <;> simp

theorem load_big_u64_short (bytes : List Nat) (n k : Nat) (h1 : 8 * k ≤ n)
    (h2 : n < 8 * k + 8) :
    load_big_u64 (copy_n (bytes.drop (8 * k)) (n - 8 * k) (List.replicate 8 0))
      = be_word bytes n k := by
  have hr : n - 8 * k < 8 := by omega
  simp only [load_big_u64, be_word, span_byte, getD_emergency_buffer _ _ _ _ hr]
  have e : ∀ j, (j < n - 8 * k) = (8 * k + j < n) := fun j => by
    apply propext; omega
  simp only [e, Nat.add_zero]

theorem getElem_opt_set_word (arr : List Nat) (k i v : Nat) :
    (arr.set k v)[i]? = if k = i ∧ i < arr.length then some v else arr[i]? := by
  rw [List.getElem?_set]
  by_cases h : k = i
  · subst h
    by_cases h2 : k < arr.length
    · simp [h2]
    · simp [h2, List.getElem?_eq_none (Nat.le_of_not_lt h2)]
  · simp [h]

theorem copy_loop_spec (bytes : List Nat) (n : Nat) (hn : n < 2 ^ 64) :
    ∀ (fuel k : Nat) (arr : List Nat), 8 * k < n → (n + 7) / 8 ≤ k + fuel →
      ∃ out, copy_loop bytes n fuel (8 * k) k arr = some out ∧ out.length = arr.length ∧
        ∀ i, out[i]? =
          if k ≤ i ∧ i < (n + 7) / 8 ∧ i < arr.length then some (be_word bytes n i)
          else arr[i]? := by
  intro fuel
  induction fuel with
  | zero => intro k arr h1 h2; omega
  | succ fuel ih =>
    intro k arr h1 h2
    have hsub : sub64 n (8 * k) = n - 8 * k := sub64_of_le (by omega) hn
    unfold copy_loop
    simp only [hsub]
    by_cases hlt : n - 8 * k < 8
    · -- the final partial chunk
      have hge : ¬ (n - 8 * k ≥ 8) := by omega
      have hle : n - 8 * k ≤ 8 := by omega
      simp only [hge, hlt, hle, if_true, if_false]
      refine ⟨_, rfl, by simp, ?_⟩
      intro i
      rw [getElem_opt_set_word, load_big_u64_short bytes n k (by omega) (by omega)]
      by_cases hki : k = i
      · subst hki
        by_cases hl : k < arr.length
        · rw [if_pos ⟨rfl, hl⟩, if_pos ⟨le_refl _, by omega, hl⟩]
        · rw [if_neg (fun h => hl h.2), if_neg (fun h => hl h.2.2)]
      · rw [if_neg (fun h => hki h.1), if_neg (fun h => hki (by omega))]
    · have hge : n - 8 * k ≥ 8 := by omega
      simp only [hge, hlt, if_true, if_false]
      by_cases heq : n - 8 * k ≤ 8
      · -- the last full chunk
        simp only [heq, if_true]
        refine ⟨_, rfl, by simp, ?_⟩
        intro i
        rw [getElem_opt_set_word, load_big_u64_full bytes n k (by omega)]
        by_cases hki : k = i
        · subst hki
          by_cases hl : k < arr.length
          · rw [if_pos ⟨rfl, hl⟩, if_pos ⟨le_refl _, by omega, hl⟩]
          · rw [if_neg (fun h => hl h.2), if_neg (fun h => hl h.2.2)]
        · rw [if_neg (fun h => hki h.1), if_neg (fun h => hki (by omega))]
      · -- a full chunk with more to come
        simp only [heq, if_false]
        have ha1 : add64 (8 * k) 8 = 8 * (k + 1) := by
          rw [add64_of_lt (by omega)]; ring
        have ha2 : add64 k 1 = k + 1 := add64_of_lt (by omega)
        rw [ha1, ha2]
        obtain ⟨out, ho, hlen, hget⟩ :=
          ih (k + 1) (arr.set k (load_big_u64 (bytes.drop (8 * k)))) (by omega) (by omega)
        refine ⟨out, ho, by simpa using hlen, ?_⟩
        intro i
        rw [hget i, getElem_opt_set_word, load_big_u64_full bytes n k (by omega), List.length_set]
        by_cases hki : k = i
        · subst hki
          by_cases hl : k < arr.length
          · rw [if_neg (by omega), if_pos ⟨rfl, hl⟩, if_pos ⟨le_refl _, by omega, hl⟩]
          · rw [if_neg (by omega), if_neg (fun h => hl h.2), if_neg (fun h => hl h.2.2)]
        · rw [if_neg (fun h : k = i ∧ i < arr.length => hki h.1)]
          by_cases hc : k + 1 ≤ i ∧ i < (n + 7) / 8 ∧ i < arr.length
          · rw [if_pos hc, if_pos ⟨by omega, hc.2.1, hc.2.2⟩]
          · rw [if_neg hc, if_neg (fun h => hc ⟨by omega, h.2.1, h.2.2⟩)]

/-- What the word loader returns: the destination with its first
`ceil(num_bytes / 8)` words replaced by the big-endian words of the span. -/
theorem copy_arr_spec (bytes : List Nat) (n : Nat) (arr : List Nat) (hn : n < 2 ^ 64) :
    ∃ out, copy_arr_bytes_into_arr_64_bits bytes n arr = some out ∧ out.length = arr.length ∧
      ∀ i, out[i]? =
        if i < (n + 7) / 8 ∧ i < arr.length then some (be_word bytes n i) else arr[i]? := by
  unfold copy_arr_bytes_into_arr_64_bits
  by_cases h0 : n > 0
  · simp only [h0, if_true]
    obtain ⟨out, ho, hlen, hget⟩ :=
      copy_loop_spec bytes n hn (n / 8 + 1) 0 arr (by omega) (by omega)
    refine ⟨out, by simpa using ho, hlen, ?_⟩
    intro i
    rw [hget i]
    simp
  · have : n = 0 := by omega
    subst this
    refine ⟨arr, by simp, rfl, ?_⟩
    intro i
    simp

/-! ## The block loop of `update` -/

theorem be_word_of_le (bytes : List Nat) (n i : Nat) (h : n ≤ 8 * i) : be_word bytes n i = 0 := by
  simp only [be_word, span_byte]
  iterate 8 rw [if_neg (by omega)]
  simp

theorem be_word_block (message : List Nat) (j i : Nat) (hi : i < 16) :
    be_word (message.drop (128 * j)) 128 i = load_big_u64 (message.drop (128 * j + 8 * i)) := by
  rw [← load_big_u64_full (message.drop (128 * j)) 128 i (by omega), List.drop_drop]

/-- A full block loaded by the word loader is the data block of the message. -/
theorem copy_full_block (message : List Nat) (j : Nat) (blk : List Nat)
    (hblk : blk.length = 16) :
    copy_arr_bytes_into_arr_64_bits (message.drop (128 * j)) 128 blk
      = some (data_block message j) := by
  obtain ⟨out, ho, hlen, hget⟩ :=
    copy_arr_spec (message.drop (128 * j)) 128 blk (by norm_num)
  rw [ho]
  congr 1
  apply List.ext_getElem?
  intro i
  rw [hget i, hblk]
  by_cases hi : i < 16
  · rw [if_pos ⟨by omega, hi⟩, be_word_block message j i hi]
    simp [data_block, List.getElem?_range hi]
  · rw [if_neg (fun h => hi h.2), List.getElem?_eq_none (by omega),
      List.getElem?_eq_none (by simp [data_block]; omega)]

theorem one_shiftLeft_mod (r : Nat) (hr : r < 8) :
    (1 <<< (63 - r * 8)) % word_modulus = 2 ^ (63 - 8 * r) := by
  rw [Nat.one_shiftLeft, Nat.mul_comm r 8]
  apply Nat.mod_eq_of_lt
  unfold word_modulus
  exact Nat.pow_lt_pow_right (by norm_num) (by omega)

/-- The tail branch of the block loop leaves the tail block in `current_block`. -/
theorem copy_tail_block (message : List Nat) (p t : Nat) (blk : List Nat)
    (hblk : blk.length = 16) (ht : t < 128) :
    ∃ out, copy_arr_bytes_into_arr_64_bits (message.drop p) t (fill_from blk (t / 8) 0)
        = some out ∧
      out.set (t / 8) (out.getD (t / 8) 0 ||| (1 <<< (63 - t % 8 * 8)) % word_modulus)
        = (List.range 16).map fun j =>
            if j = t / 8 then be_word (message.drop p) t j ||| 2 ^ (63 - 8 * (t % 8))
            else be_word (message.drop p) t j := by
  have hfl : (fill_from blk (t / 8) 0).length = 16 := by
    simp [fill_from, hblk]; omega
  obtain ⟨out, ho, hlen, hget⟩ :=
    copy_arr_spec (message.drop p) t (fill_from blk (t / 8) 0) (by omega)
  rw [hfl] at hlen hget
  have hout : ∀ i, i < 16 → out[i]? = some (be_word (message.drop p) t i) := by
    intro i hi
    rw [hget i]
    by_cases hc : i < (t + 7) / 8
    · rw [if_pos ⟨hc, hi⟩]
    · rw [if_neg (fun h => hc h.1), be_word_of_le _ _ _ (by omega)]
      simp only [fill_from, hblk]
      rw [List.getElem?_append_right (by simp; omega)]
      simp [List.getElem?_replicate]
      omega
  refine ⟨out, ho, ?_⟩
  apply List.ext_getElem?
  intro i
  rw [getElem_opt_set_word, hlen, one_shiftLeft_mod _ (Nat.mod_lt _ (by norm_num)),
    List.getD_eq_getElem?_getD, hout (t / 8) (by omega)]
  by_cases hi : i < 16
  · rw [List.getElem?_map, List.getElem?_range hi]
    by_cases hti : t / 8 = i
    · subst hti
      simp [hi]
    · rw [if_neg (fun h => hti h.1), hout i hi]
      simp [Ne.symm hti]
  · rw [if_neg (fun h => hi h.2), List.getElem?_eq_none (by omega),
      List.getElem?_eq_none (by simp; omega)]

/-- The block loop, entered at byte `128 * j`: it compresses the remaining full
data blocks in order and breaks either with the terminating bit postponed (the
message ended on a block boundary) or with the tail block assembled. -/
theorem update_loop_spec {σ : Type} (C : List Nat → σ → σ) (message : List Nat) (len : Nat)
    (hlen : len < 2 ^ 64) :
    ∀ (fuel j : Nat) (H : σ) (blk : List Nat), blk.length = 16 → 128 * j ≤ len →
      len / 128 + 1 ≤ j + fuel →
      ∃ ex, update_loop C message len fuel (128 * j) H blk = some ex ∧
        ex.current_hash_values
          = ((List.range' j (len / 128 - j)).map (data_block message)).foldl
              (fun s b => C b s) H ∧
        ex.current_block.length = 16 ∧
        ((len % 128 = 0 ∧ 128 * j < len) → ex.bit_postponed = true) ∧
        (¬ (len % 128 = 0 ∧ 128 * j < len) →
          ex.bit_postponed = false ∧ ex.current_block = tail_block message len ∧
          ex.index_of_terminating_1_in_64bit_arr = len % 128 / 8) := by
  intro fuel
  induction fuel with
  | zero => intro j H blk _ h1 h2; omega
  | succ fuel ih =>
    intro j H blk hblk h1 h2
    have hsub : sub64 len (128 * j) = len - 128 * j := sub64_of_le h1 hlen
    unfold update_loop
    simp only [hsub, blocks_size_bytes]
    by_cases hge : len - 128 * j ≥ 128
    · simp only [hge, if_true, copy_full_block message j blk hblk, Option.map_some',
        Option.some_bind]
      have hdl : (data_block message j).length = 16 := by simp [data_block]
      by_cases heq : len - 128 * j = 128
      · -- the message ends on this block boundary
        simp only [heq, if_true]
        have hq : len / 128 - j = 1 := by omega
        refine ⟨_, rfl, ?_, hdl, fun _ => rfl, fun h => absurd ⟨by omega, by omega⟩ h⟩
        simp [hq, List.range']
      · have hlt : ¬ (len - 128 * j < 128) := by omega
        simp only [heq, hlt, if_false]
        have ha : add64 (128 * j) 128 = 128 * (j + 1) := by
          rw [add64_of_lt (by omega)]; ring
        rw [ha]
        obtain ⟨ex, hex, hh, hl, hp, hnp⟩ :=
          ih (j + 1) (C (data_block message j) H) (data_block message j) hdl (by omega)
            (by omega)
        refine ⟨ex, hex, ?_, hl, ?_, ?_⟩
        · rw [hh]
          have hq : len / 128 - j = (len / 128 - (j + 1)) + 1 := by omega
          rw [hq, List.range'_succ]
          simp
        · intro h; exact hp ⟨h.1, by omega⟩
        · intro h; exact hnp (fun h2 => h ⟨h2.1, by omega⟩)
    · -- fewer than 128 bytes remain: the tail
      have hne : ¬ (len - 128 * j = 128) := by omega
      have hlt : len - 128 * j < 128 := by omega
      simp only [hge, hne, hlt, if_true, if_false, Option.some_bind]
      have ht : len - 128 * j = len % 128 := by omega
      have hq : len / 128 - j = 0 := by omega
      obtain ⟨out, ho, hset⟩ :=
        copy_tail_block message (128 * j) (len - 128 * j) blk hblk hlt
      rw [ho]
      simp only [Option.map_some']
      refine ⟨_, rfl, by simp [hq], ?_, fun h => absurd h.2 (by omega), fun _ => ⟨rfl, ?_, ?_⟩⟩
      · show (List.set _ _ _).length = 16
        rw [hset]; simp
      · show List.set _ _ _ = _
        rw [hset]
        have hp : len - len % 128 = 128 * j := by omega
        simp only [tail_block]
        rw [hp, ← ht]
      · show (len - 128 * j) / 8 = _
        rw [ht]

theorem foldl_record_block (bs calls : List (List Nat)) :
    bs.foldl (fun s b => record_block b s) calls = calls ++ bs := by
  induction bs generalizing calls with
  | nil => simp
  | cons b bs ih =>
    simp only [List.foldl_cons, ih]
    simp [record_block]

/-- What `update` does, in closed form: it compresses the blocks
`message_blocks message len` in order, each once, and leaves the last of them in
`current_block`. -/
theorem update_spec {σ : Type} (C : List Nat → σ → σ) (message : List Nat) (len : Nat)
    (H : σ) (blk : List Nat) (hlen : len < 2 ^ 64) (hblk : blk.length = 16) :
    update C message len H blk
      = some ((message_blocks message len).foldl (fun s b => C b s) H,
          with_length (if len % 128 / 8 ≥ 14 then List.replicate 16 0
            else tail_block message len) len) := by
  obtain ⟨ex, hex, hh, hl, hp, hnp⟩ :=
    update_loop_spec C message len hlen (len / 128 + 1) 0 H blk hblk (by omega) (by omega)
  have htl : (tail_block message len).length = 16 := by simp [tail_block]
  have hmod : len % word_modulus = len := Nat.mod_eq_of_lt hlen
  have h63 : (1 <<< 63) % word_modulus = 2 ^ 63 := by decide
  unfold update
  simp only [blocks_size_bytes, Nat.mul_zero] at hex ⊢
  rw [hex]
  simp only [Option.map_some', hl, hmod, h63]
  simp only [Nat.sub_zero] at hh
  rw [← List.range_eq_range'] at hh
  by_cases hpost : len % 128 = 0 ∧ 128 * 0 < len
  · -- the terminating bit was postponed to a block of its own
    have hb := hp hpost
    have ht0 : len % 128 / 8 = 0 := by rw [hpost.1]
    have hn14 : ¬ (len % 128 / 8 ≥ 14) := by omega
    have htb : tail_block message len
        = (List.replicate 16 0).set 0 (2 ^ 63) := by
      simp only [tail_block, hpost.1]
      apply List.ext_getElem?
      intro i
      by_cases hi : i < 16
      · rw [List.getElem?_map, List.getElem?_range hi, getElem_opt_set_word]
        simp only [be_word_of_le _ 0 _ (Nat.zero_le _), Option.map_some']
        by_cases h0 : i = 0
        · subst h0; simp
        · have h0' : ¬ (0 = i ∧ i < (List.replicate 16 0).length) := fun h => h0 h.1.symm
          rw [if_neg h0', List.getElem?_replicate, if_pos hi, if_neg h0]
      · rw [List.getElem?_eq_none (by simp; omega), List.getElem?_eq_none (by simp; omega)]
    simp only [hb, if_true, hn14, if_false, message_blocks, final_blocks, List.foldl_append,
      List.foldl_cons, List.foldl_nil, hh, htb]
    simp [fill_from, hl, with_length, word_modulus]
  · obtain ⟨hb, hcb, hidx⟩ := hnp hpost
    simp only [hb, hcb, hidx, htl, Bool.false_eq_true, if_false]
    by_cases h14 : len % 128 / 8 ≥ 14
    · have h14' : len % 128 / 8 ≥ 16 - 2 := h14
      simp only [h14, h14', if_true, message_blocks, final_blocks, List.foldl_append,
        List.foldl_cons, List.foldl_nil, hh]
      simp [fill_from, htl, with_length, word_modulus]
    · have h14' : ¬ (len % 128 / 8 ≥ 16 - 2) := h14
      simp only [h14, h14', if_false, message_blocks, final_blocks, List.foldl_append,
        List.foldl_cons, List.foldl_nil, hh, htl]
      simp [with_length, word_modulus, htl]

/-! ## The assembled blocks are the parse of the padded message -/

theorem be_value_take_drop (l : List Nat) (g : Nat) (h : 8 * g + 8 ≤ l.length) :
    be_value ((l.drop (8 * g)).take 8) = be_word l l.length g := by
  have e : (l.drop (8 * g)).take 8
      = [l.getD (8 * g) 0, l.getD (8 * g + 1) 0, l.getD (8 * g + 2) 0, l.getD (8 * g + 3) 0,
         l.getD (8 * g + 4) 0, l.getD (8 * g + 5) 0, l.getD (8 * g + 6) 0,
         l.getD (8 * g + 7) 0] := by
    apply List.ext_getElem?
    intro i
    rw [List.getElem?_take, List.getElem?_drop]
    by_cases hi : i < 8
    · rw [if_pos hi, List.getElem?_eq_getElem (by omega)]
      have hg : ∀ x, x < l.length → l.getD x 0 = l[x]?.getD 0 := fun x _ =>
        List.getD_eq_getElem?_getD l x 0
      interval_cases i <;> simp [List.getD_eq_getElem?_getD, List.getElem?_eq_getElem,
        show 8 * g < l.length by omega, show 8 * g + 1 < l.length by omega,
        show 8 * g + 2 < l.length by omega, show 8 * g + 3 < l.length by omega,
        show 8 * g + 4 < l.length by omega, show 8 * g + 5 < l.length by omega,
        show 8 * g + 6 < l.length by omega, show 8 * g + 7 < l.length by omega]
    · rw [if_neg hi, List.getElem?_eq_none (by simp; omega)]
  rw [e]
  simp only [be_value, List.foldl_cons, List.foldl_nil, be_word, span_byte]
  iterate 8 rw [if_pos (by omega)]
  ring

theorem be_word_drop (bytes : List Nat) (a n i : Nat) :
    be_word (bytes.drop (8 * a)) n i = be_word bytes (n + 8 * a) (a + i) := by
  simp only [be_word, span_byte, getD_drop_zero]
  have e : ∀ b, (8 * i + b < n) = (8 * (a + i) + b < n + 8 * a) := fun b => by
    apply propext; omega
  have e0 : (8 * i < n) = (8 * (a + i) < n + 8 * a) := by
    apply propext; omega
  have f : ∀ b, 8 * a + (8 * i + b) = 8 * (a + i) + b := fun b => by ring
  have f0 : 8 * a + 8 * i = 8 * (a + i) := by ring
  simp only [e, e0, f, f0]

theorem length_padded_message (m : List Nat) (k : Nat) :
    (padded_message m k).length = m.length + 1 + k + 16 := by
  simp [padded_message, be_bytes]
  omega

theorem padded_getD_data (m : List Nat) (k x : Nat) (hx : x < m.length) :
    (padded_message m k).getD x 0 = m.getD x 0 := by
  simp only [padded_message, List.append_assoc]
  rw [List.getD_append _ _ _ _ hx]

theorem padded_getD_bit (m : List Nat) (k : Nat) :
    (padded_message m k).getD m.length 0 = 2 ^ 7 := by
  simp only [padded_message, List.append_assoc]
  rw [List.getD_append_right _ _ _ _ (le_refl _)]
  simp

theorem padded_getD_zero (m : List Nat) (k x : Nat) (h1 : m.length < x)
    (h2 : x < m.length + 1 + k) : (padded_message m k).getD x 0 = 0 := by
  simp only [padded_message, List.append_assoc]
  rw [List.getD_append_right _ _ _ _ (by omega),
    List.getD_append_right _ _ _ _ (by simp; omega)]
  simp only [List.getD_eq_getElem?_getD, List.length_singleton]
  rw [List.getElem?_append_left (by simp; omega), List.getElem?_replicate]
  split <;> simp

theorem padded_getD_length (m : List Nat) (k b : Nat) (hb : b < 16) :
    (padded_message m k).getD (m.length + 1 + k + b) 0
      = 8 * m.length / 256 ^ (15 - b) % 256 := by
  simp only [padded_message]
  rw [List.getD_append_right _ _ _ _ (by simp; omega)]
  have e : m.length + 1 + k + b - (m ++ [128] ++ List.replicate k 0).length = b := by
    simp; omega
  rw [e, List.getD_eq_getElem?_getD]
  simp [be_bytes, List.getElem?_range hb]

theorem padded_getD_low (m : List Nat) (k x : Nat) (hx : x < m.length + 1 + k) :
    (padded_message m k).getD x 0
      = (if x < m.length then m.getD x 0 else 0) + (if x = m.length then 2 ^ 7 else 0) := by
  by_cases h1 : x < m.length
  · rw [padded_getD_data m k x h1, if_pos h1, if_neg (by omega)]
    rfl
  · by_cases h2 : x = m.length
    · rw [if_neg h1, if_pos h2, h2, padded_getD_bit, Nat.zero_add]
    · rw [if_neg h1, if_neg h2, padded_getD_zero m k x (by omega) hx]

theorem terminating_bit_sum (g n : Nat) :
    (if 8 * g = n then 2 ^ 7 else 0) * 2 ^ 56 + (if 8 * g + 1 = n then 2 ^ 7 else 0) * 2 ^ 48
      + (if 8 * g + 2 = n then 2 ^ 7 else 0) * 2 ^ 40
      + (if 8 * g + 3 = n then 2 ^ 7 else 0) * 2 ^ 32
      + (if 8 * g + 4 = n then 2 ^ 7 else 0) * 2 ^ 24
      + (if 8 * g + 5 = n then 2 ^ 7 else 0) * 2 ^ 16
      + (if 8 * g + 6 = n then 2 ^ 7 else 0) * 2 ^ 8
      + (if 8 * g + 7 = n then 2 ^ 7 else 0)
      = if g = n / 8 then 2 ^ (63 - 8 * (n % 8)) else 0 := by
  by_cases hg : g = n / 8
  · rw [if_pos hg]
    obtain ⟨r, hr, hn⟩ : ∃ r, r < 8 ∧ n = 8 * g + r := ⟨n % 8, Nat.mod_lt _ (by norm_num), by omega⟩
    have hmod : n % 8 = r := by omega
    rw [hmod]
    subst hn
    interval_cases r <;> simp
  · rw [if_neg hg]
    iterate 8 rw [if_neg (by omega)]
    simp

/-- A word of the padded message that ends before the length field: the word of
the message, plus the terminating bit when it falls into this word. -/
theorem be_word_padded_low (m : List Nat) (k g : Nat) (hg : 8 * g + 8 ≤ m.length + 1 + k) :
    be_word (padded_message m k) (padded_message m k).length g
      = be_word m m.length g + (if g = m.length / 8 then 2 ^ (63 - 8 * (m.length % 8)) else 0) := by
  rw [← terminating_bit_sum g m.length]
  simp only [be_word, span_byte, length_padded_message]
  iterate 8 rw [if_pos (by omega)]
  iterate 8 rw [padded_getD_low m k _ (by omega)]
  ring

theorem or_two_pow_of_dvd (a s : Nat) (h : a % (2 * 2 ^ s) = 0) : a ||| 2 ^ s = a + 2 ^ s := by
  obtain ⟨c, rfl⟩ := Nat.dvd_of_mod_eq_zero h
  have hlt : 2 ^ s < 2 ^ (s + 1) := Nat.pow_lt_pow_right (by norm_num) (by omega)
  have := Nat.mul_add_lt_is_or hlt c
  rw [pow_succ, Nat.mul_comm (2 ^ s) 2] at this
  exact this.symm

/-- The word holding a partial chunk of `n mod 8` bytes has its low
`8 - n mod 8` bytes zero. -/
theorem be_word_partial_dvd (bytes : List Nat) (n : Nat) :
    be_word bytes n (n / 8) % (2 * 2 ^ (63 - 8 * (n % 8))) = 0 := by
  obtain ⟨g, r, hr, rfl⟩ : ∃ g r, r < 8 ∧ n = 8 * g + r :=
    ⟨n / 8, n % 8, Nat.mod_lt _ (by norm_num), by omega⟩
  have h1 : (8 * g + r) / 8 = g := by omega
  have h2 : (8 * g + r) % 8 = r := by omega
  rw [h1, h2]
  simp only [be_word, span_byte]
  interval_cases r <;> simp <;> omega

/-- The terminating bit is set in a position that the loaded tail left clear:
setting it adds its value. -/
theorem be_word_or_terminating_bit (bytes : List Nat) (n : Nat) :
    be_word bytes n (n / 8) ||| 2 ^ (63 - 8 * (n % 8))
      = be_word bytes n (n / 8) + 2 ^ (63 - 8 * (n % 8)) :=
  or_two_pow_of_dvd _ _ (be_word_partial_dvd bytes n)

theorem padded_getD_field (m : List Nat) (k x b : Nat) (hx : x = m.length + 1 + k + b)
    (hb : b < 16) : (padded_message m k).getD x 0 = 8 * m.length / 256 ^ (15 - b) % 256 := by
  rw [hx, padded_getD_length m k b hb]

/-- The second-to-last word of the padded message holds the bits of the bit
length above the low 64. -/
theorem be_word_padded_hi (m : List Nat) (k g : Nat) (hm : m.length < 2 ^ 64)
    (hg : 8 * g = m.length + 1 + k) :
    be_word (padded_message m k) (padded_message m k).length g = m.length >>> 61 := by
  simp only [be_word, span_byte, length_padded_message]
  iterate 8 rw [if_pos (by omega)]
  rw [padded_getD_field m k _ 0 (by omega) (by norm_num),
    padded_getD_field m k _ 1 (by omega) (by norm_num),
    padded_getD_field m k _ 2 (by omega) (by norm_num),
    padded_getD_field m k _ 3 (by omega) (by norm_num),
    padded_getD_field m k _ 4 (by omega) (by norm_num),
    padded_getD_field m k _ 5 (by omega) (by norm_num),
    padded_getD_field m k _ 6 (by omega) (by norm_num),
    padded_getD_field m k _ 7 (by omega) (by norm_num), Nat.shiftRight_eq_div_pow]
  omega

theorem be_digits_sum (w : Nat) :
    w / 256 ^ 7 % 256 * 2 ^ 56 + w / 256 ^ 6 % 256 * 2 ^ 48 + w / 256 ^ 5 % 256 * 2 ^ 40
      + w / 256 ^ 4 % 256 * 2 ^ 32 + w / 256 ^ 3 % 256 * 2 ^ 24 + w / 256 ^ 2 % 256 * 2 ^ 16
      + w / 256 ^ 1 % 256 * 2 ^ 8 + w / 256 ^ 0 % 256 = w % 2 ^ 64 := by
  omega

/-- The last word of the padded message holds the low 64 bits of the bit
length. -/
theorem be_word_padded_lo (m : List Nat) (k g : Nat)
    (hg : 8 * g = m.length + 1 + k + 8) :
    be_word (padded_message m k) (padded_message m k).length g
      = (m.length <<< 3) % 2 ^ 64 := by
  simp only [be_word, span_byte, length_padded_message]
  iterate 8 rw [if_pos (by omega)]
  rw [padded_getD_field m k _ 8 (by omega) (by norm_num),
    padded_getD_field m k _ 9 (by omega) (by norm_num),
    padded_getD_field m k _ 10 (by omega) (by norm_num),
    padded_getD_field m k _ 11 (by omega) (by norm_num),
    padded_getD_field m k _ 12 (by omega) (by norm_num),
    padded_getD_field m k _ 13 (by omega) (by norm_num),
    padded_getD_field m k _ 14 (by omega) (by norm_num),
    padded_getD_field m k _ 15 (by omega) (by norm_num), Nat.shiftLeft_eq,
    show m.length * 2 ^ 3 = 8 * m.length by ring]
  exact be_digits_sum (8 * m.length)

/-- The parse of a byte string whose length is a multiple of 128, word by word. -/
theorem parse_blocks_eq (bytes : List Nat) (h : bytes.length % 128 = 0) :
    parse_blocks bytes
      = (List.range (bytes.length / 128)).map fun i =>
          (List.range 16).map fun j => be_word bytes bytes.length (16 * i + j) := by
  unfold parse_blocks
  apply List.map_congr_left
  intro i hi
  apply List.map_congr_left
  intro j hj
  rw [List.mem_range] at hi hj
  have e : 128 * i + 8 * j = 8 * (16 * i + j) := by ring
  rw [e, be_value_take_drop bytes (16 * i + j) (by omega)]

/-- A word of a full data block is the same word of the padded message. -/
theorem data_word_padded (m : List Nat) (k i j : Nat) (hi : i < m.length / 128) (hj : j < 16) :
    load_big_u64 (m.drop (128 * i + 8 * j))
      = be_word (padded_message m k) (padded_message m k).length (16 * i + j) := by
  have e : 128 * i + 8 * j = 8 * (16 * i + j) := by ring
  rw [e, load_big_u64_full m m.length (16 * i + j) (by omega),
    be_word_padded_low m k (16 * i + j) (by omega), if_neg (by omega), Nat.add_zero]

/-- A word of the tail block that ends before the length field is the same word
of the padded message. -/
theorem tail_word_padded (m : List Nat) (k j : Nat)
    (hj : 8 * (16 * (m.length / 128) + j) + 8 ≤ m.length + 1 + k) :
    (if j = m.length % 128 / 8 then
        be_word (m.drop (m.length - m.length % 128)) (m.length % 128) j
          ||| 2 ^ (63 - 8 * (m.length % 128 % 8))
      else be_word (m.drop (m.length - m.length % 128)) (m.length % 128) j)
      = be_word (padded_message m k) (padded_message m k).length
          (16 * (m.length / 128) + j) := by
  have e1 : m.length - m.length % 128 = 8 * (16 * (m.length / 128)) := by omega
  have e2 : m.length % 128 + 8 * (16 * (m.length / 128)) = m.length := by omega
  have e3 : m.length % 128 % 8 = m.length % 8 := by omega
  rw [e1, be_word_drop, e2, e3, be_word_padded_low m k _ hj]
  by_cases h : j = m.length % 128 / 8
  · have h' : 16 * (m.length / 128) + j = m.length / 8 := by omega
    rw [if_pos h, if_pos h', h', be_word_or_terminating_bit]
  · have h' : ¬ (16 * (m.length / 128) + j = m.length / 8) := by omega
    rw [if_neg h, if_neg h', Nat.add_zero]

theorem with_length_map (f : Nat → Nat) (len : Nat) :
    with_length ((List.range 16).map f) len
      = (List.range 16).map fun j =>
          if j = 14 then len >>> 61 else if j = 15 then (len <<< 3) % 2 ^ 64 else f j := by
  apply List.ext_getElem?
  intro j
  unfold with_length
  rw [getElem_opt_set_word, getElem_opt_set_word]
  by_cases hj : j < 16
  · rw [List.getElem?_map, List.getElem?_map, List.getElem?_range hj]
    by_cases h14 : j = 14
    · subst h14; simp
    · by_cases h15 : j = 15
      · subst h15; simp
      · rw [if_neg (fun h => h14 h.1.symm), if_neg (fun h => h15 h.1.symm)]
        simp [h14, h15]
  · rw [if_neg (by simp; omega), if_neg (by simp; omega), List.getElem?_eq_none (by simp; omega),
      List.getElem?_eq_none (by simp; omega)]

theorem replicate_zero_map : List.replicate 16 0 = (List.range 16).map fun _ => 0 := by
  decide

/-- The number of zero bytes of the padding: the least `k` that makes the
padded length a multiple of 128. -/
theorem pad_zeros_eq (len k : Nat) (hk : (len + 1 + k + 16) % 128 = 0)
    (hmin : ∀ j, j < k → (len + 1 + j + 16) % 128 ≠ 0) :
    k = if len % 128 ≤ 111 then 111 - len % 128 else 239 - len % 128 := by
  by_cases h : len % 128 ≤ 111
  · rw [if_pos h]
    by_contra hne
    exact hmin (111 - len % 128) (by omega) (by omega)
  · rw [if_neg h]
    by_contra hne
    exact hmin (239 - len % 128) (by omega) (by omega)

/-- The blocks assembled by the code are the parse of the padded message. -/
theorem message_blocks_eq_parse (m : List Nat) (k : Nat) (hm : m.length < 2 ^ 64)
    (hk : (m.length + 1 + k + 16) % 128 = 0)
    (hmin : ∀ j, j < k → (m.length + 1 + j + 16) % 128 ≠ 0) :
    message_blocks m m.length = parse_blocks (padded_message m k) := by
  have hkv := pad_zeros_eq m.length k hk hmin
  rw [parse_blocks_eq _ (by rw [length_padded_message]; exact hk)]
  have hdata : (List.range (m.length / 128)).map (data_block m)
      = (List.range (m.length / 128)).map fun i =>
          (List.range 16).map fun j =>
            be_word (padded_message m k) (padded_message m k).length (16 * i + j) := by
    apply List.map_congr_left
    intro i hi
    rw [List.mem_range] at hi
    unfold data_block
    apply List.map_congr_left
    intro j hj
    rw [List.mem_range] at hj
    exact data_word_padded m k i j hi hj
  unfold message_blocks final_blocks
  rw [hdata]
  by_cases ht : m.length % 128 ≤ 111
  · -- the tail block has room for the length field
    rw [if_pos ht] at hkv
    have hq : (padded_message m k).length / 128 = m.length / 128 + 1 := by
      rw [length_padded_message]; omega
    rw [hq, List.range_succ (m.length / 128), List.map_append, if_neg (by omega)]
    congr 1
    simp only [List.map_cons, List.map_nil]
    congr 1
    unfold tail_block
    rw [with_length_map]
    apply List.map_congr_left
    intro j hj
    rw [List.mem_range] at hj
    by_cases h14 : j = 14
    · rw [if_pos h14, be_word_padded_hi m k _ hm (by omega)]
    · by_cases h15 : j = 15
      · rw [if_neg h14, if_pos h15, be_word_padded_lo m k _ (by omega)]
      · rw [if_neg h14, if_neg h15]
        exact tail_word_padded m k j (by omega)
  · -- the length field goes into a block of its own
    rw [if_neg ht] at hkv
    have hq : (padded_message m k).length / 128 = m.length / 128 + 1 + 1 := by
      rw [length_padded_message]; omega
    rw [hq, List.range_succ (m.length / 128 + 1), List.range_succ (m.length / 128),
      List.map_append, List.map_append, if_pos (by omega), List.append_assoc]
    congr 1
    simp only [List.map_cons, List.map_nil, List.singleton_append]
    congr 1
    · unfold tail_block
      apply List.map_congr_left
      intro j hj
      rw [List.mem_range] at hj
      exact tail_word_padded m k j (by omega)
    · congr 1
      rw [replicate_zero_map, with_length_map]
      apply List.map_congr_left
      intro j hj
      rw [List.mem_range] at hj
      by_cases h14 : j = 14
      · rw [if_pos h14, be_word_padded_hi m k _ hm (by omega)]
      · by_cases h15 : j = 15
        · rw [if_neg h14, if_pos h15, be_word_padded_lo m k _ (by omega)]
        · rw [if_neg h14, if_neg h15, be_word_padded_low m k _ (by omega), if_neg (by omega),
            be_word_of_le _ _ _ (by omega)]

/-- The blocks `update` hands to the compressor, in the order of the calls. -/
theorem update_record_block (message : List Nat) (len : Nat) (blk : List Nat)
    (hlen : len < 2 ^ 64) (hblk : blk.length = 16) :
    (update record_block message len [] blk).map Prod.fst
      = some (message_blocks message len) := by
  rw [update_spec record_block message len [] blk hlen hblk, foldl_record_block]
  simp

/-! ## Claims -/

/-- C1: for a message `m` of fewer than `2 ^ 64` bytes, `update` applied to a
state `H` leaves the hash state equal to the left fold of the compressor, from
`H`, over the 16-word blocks parsed as big-endian 64-bit words from the padded
message `m ++ [0x80] ++ k zero bytes ++ (8 * len as 16 big-endian bytes)`, `k`
the least number making the total length a multiple of 128; the compressor is
called on exactly these blocks, in this order, each once. -/
theorem update_folds_padded_message {σ : Type} (SHA512_compress : List Nat → σ → σ) (H : σ)
    (current_block : List Nat) (m : List Nat) (k : Nat) (hlen : m.length < 2 ^ 64)
    (hblk : current_block.length = 16) (hk : (m.length + 1 + k + 16) % 128 = 0)
    (hmin : ∀ j, j < k → (m.length + 1 + j + 16) % 128 ≠ 0) :
    (update SHA512_compress m m.length H current_block).map Prod.fst
        = some ((parse_blocks (padded_message m k)).foldl (fun s b => SHA512_compress b s) H)
      ∧ (update record_block m m.length [] current_block).map Prod.fst
        = some (parse_blocks (padded_message m k)) := by
  rw [← message_blocks_eq_parse m k hlen hk hmin,
    update_record_block m m.length current_block hlen hblk,
    update_spec SHA512_compress m m.length H current_block hlen hblk]
  exact ⟨rfl, rfl⟩

/-- C1, at the message "abc" with `k = 108` and the recording compressor. -/
theorem update_folds_padded_message_witness :
    ([0x61, 0x62, 0x63] : List Nat).length < 2 ^ 64
      ∧ (List.replicate 16 0).length = 16
      ∧ (([0x61, 0x62, 0x63] : List Nat).length + 1 + 108 + 16) % 128 = 0
      ∧ (∀ j, j < 108 → (([0x61, 0x62, 0x63] : List Nat).length + 1 + j + 16) % 128 ≠ 0)
      ∧ (update record_block [0x61, 0x62, 0x63] 3 [] (List.replicate 16 0)).map Prod.fst
          = some (parse_blocks (padded_message [0x61, 0x62, 0x63] 108)) :=
  ⟨by decide, by decide, by decide, by decide,
    (update_folds_padded_message record_block [] (List.replicate 16 0) [0x61, 0x62, 0x63] 108
      (by decide) (by decide) (by decide) (by decide)).2⟩

theorem tail_block_of_aligned (message : List Nat) (len : Nat) (h : len % 128 = 0) :
    tail_block message len = [2 ^ 63, 0, 0, 0, 0, 0, 0, 0, 0, 0, 0, 0, 0, 0, 0, 0] := by
  simp only [tail_block, h]
  have e : (List.range 16).map (fun j =>
        if j = 0 / 8 then be_word (message.drop (len - 0)) 0 j ||| 2 ^ (63 - 8 * (0 % 8))
        else be_word (message.drop (len - 0)) 0 j)
      = (List.range 16).map (fun j => if j = 0 then 2 ^ 63 else 0) := by
    apply List.map_congr_left
    intro j _
    rw [be_word_of_le _ 0 j (Nat.zero_le _)]
    simp
  rw [e]
  decide

theorem length_message_blocks (message : List Nat) (len : Nat) :
    (message_blocks message len).length
      = if len % 128 ≤ 111 then len / 128 + 1 else len / 128 + 2 := by
  unfold message_blocks final_blocks
  by_cases h : len % 128 ≤ 111
  · rw [if_neg (by omega), if_pos h]; simp
  · rw [if_pos (by omega), if_neg h]; simp

/-- C4: for a message whose length is a multiple of 128 bytes (zero included),
`update` calls the compressor exactly `len / 128 + 1` times: once per full data
block in order, then once on a pure-padding block whose word 0 is `2 ^ 63`,
whose words 1..13 are 0 and whose words 14 and 15 hold the length field. -/
theorem update_aligned_message_blocks (m : List Nat) (current_block : List Nat)
    (hlen : m.length < 2 ^ 64) (hblk : current_block.length = 16)
    (haligned : m.length % 128 = 0) :
    (update record_block m m.length [] current_block).map Prod.fst
        = some ((List.range (m.length / 128)).map (data_block m)
            ++ [[2 ^ 63, 0, 0, 0, 0, 0, 0, 0, 0, 0, 0, 0, 0, 0,
                  m.length >>> 61, (m.length <<< 3) % 2 ^ 64]])
      ∧ (update record_block m m.length [] current_block).map (fun r => r.1.length)
        = some (m.length / 128 + 1) := by
  have hcalls := update_record_block m m.length current_block hlen hblk
  have hmb : message_blocks m m.length
      = (List.range (m.length / 128)).map (data_block m)
          ++ [[2 ^ 63, 0, 0, 0, 0, 0, 0, 0, 0, 0, 0, 0, 0, 0,
                m.length >>> 61, (m.length <<< 3) % 2 ^ 64]] := by
    unfold message_blocks final_blocks
    rw [if_neg (by omega), tail_block_of_aligned m m.length haligned]
    simp [with_length]
  rw [hmb] at hcalls
  refine ⟨hcalls, ?_⟩
  cases hu : update record_block m m.length [] current_block with
  | none => rw [hu] at hcalls; simp at hcalls
  | some r =>
    rw [hu] at hcalls
    simp only [Option.map_some', Option.some.injEq] at hcalls ⊢
    rw [hcalls]
    simp

/-- C4, at the empty message: one call, on the pure-padding block. -/
theorem update_aligned_message_blocks_witness :
    ([] : List Nat).length < 2 ^ 64 ∧ (List.replicate 16 7).length = 16
      ∧ ([] : List Nat).length % 128 = 0
      ∧ (update record_block [] ([] : List Nat).length [] (List.replicate 16 7)).map
          (fun r => r.1.length) = some (([] : List Nat).length / 128 + 1) :=
  ⟨by decide, by decide, by decide,
    (update_aligned_message_blocks [] (List.replicate 16 7)
      (by decide) (by decide) (by decide)).2⟩

theorem tail_block_getD (message : List Nat) (len j : Nat) (hj : j < 16) :
    (tail_block message len).getD j 0
      = if j = len % 128 / 8 then
          be_word (message.drop (len - len % 128)) (len % 128) j
            ||| 2 ^ (63 - 8 * (len % 128 % 8))
        else be_word (message.drop (len - len % 128)) (len % 128) j := by
  simp only [tail_block, List.getD_eq_getElem?_getD, List.getElem?_map,
    List.getElem?_range hj, Option.map_some', Option.getD_some]

theorem with_length_getD (block : List Nat) (len j : Nat) (hj : j < 14) :
    (with_length block len).getD j 0 = block.getD j 0 := by
  simp only [with_length, List.getD_eq_getElem?_getD]
  rw [List.getElem?_set_ne (by omega), List.getElem?_set_ne (by omega)]

theorem with_length_zero_block (len : Nat) :
    with_length (List.replicate 16 0) len
      = [0, 0, 0, 0, 0, 0, 0, 0, 0, 0, 0, 0, 0, 0, len >>> 61, (len <<< 3) % 2 ^ 64] := by
  simp [with_length]

/-- C5: with tail `t = len mod 128`, `update` calls the compressor exactly
`len / 128 + 1` times when `t ≤ 111` and exactly `len / 128 + 2` times when
`112 ≤ t`; in the second case the block with the terminating bit is compressed
without a length field and is followed by a block that is zero except for the
length field in words 14 and 15.  A 111-byte message gives one block, whose
word 13 has bit 7 set (its low byte is `0x80`); a 112-byte message gives two
blocks, the first with word 14 equal to `2 ^ 63` and word 15 equal to 0. -/
theorem update_block_count (m : List Nat) (current_block : List Nat)
    (hlen : m.length < 2 ^ 64) (hblk : current_block.length = 16) :
    ∃ calls, (update record_block m m.length [] current_block).map Prod.fst = some calls
      ∧ (m.length % 128 ≤ 111 → calls.length = m.length / 128 + 1)
      ∧ (112 ≤ m.length % 128 → calls.length = m.length / 128 + 2
          ∧ calls[m.length / 128]? = some (tail_block m m.length)
          ∧ calls[m.length / 128 + 1]?
              = some [0, 0, 0, 0, 0, 0, 0, 0, 0, 0, 0, 0, 0, 0,
                  m.length >>> 61, (m.length <<< 3) % 2 ^ 64])
      ∧ (m.length = 111 → ∃ b, calls = [b] ∧ (b.getD 13 0).testBit 7 = true
          ∧ b.getD 13 0 % 256 = 128)
      ∧ (m.length = 112 → ∃ b1 b2, calls = [b1, b2] ∧ b1.getD 14 0 = 2 ^ 63
          ∧ b1.getD 15 0 = 0) := by
  refine ⟨message_blocks m m.length, update_record_block m m.length current_block hlen hblk,
    ?_, ?_, ?_, ?_⟩
  · intro h
    rw [length_message_blocks, if_pos h]
  · intro h
    refine ⟨by rw [length_message_blocks, if_neg (by omega)], ?_, ?_⟩
    · unfold message_blocks final_blocks
      rw [if_pos (by omega), List.getElem?_append_right (by simp)]
      simp
    · unfold message_blocks final_blocks
      rw [if_pos (by omega), List.getElem?_append_right (by simp), with_length_zero_block]
      simp
  · intro h
    refine ⟨with_length (tail_block m m.length) m.length, ?_, ?_, ?_⟩
    · unfold message_blocks final_blocks
      rw [h]
      simp
    · rw [with_length_getD _ _ 13 (by norm_num), tail_block_getD m m.length 13 (by norm_num), h]
      simp only [show (111 : Nat) % 128 = 111 by norm_num, show (111 : Nat) / 8 = 13 by norm_num,
        show (111 : Nat) % 8 = 7 by norm_num, if_true, Nat.testBit_or]
      rw [show (63 : Nat) - 8 * 7 = 7 by norm_num, Nat.testBit_two_pow_self, Bool.or_true]
    · rw [with_length_getD _ _ 13 (by norm_num), tail_block_getD m m.length 13 (by norm_num), h]
      have e := be_word_or_terminating_bit (m.drop (111 - 111 % 128)) 111
      simp only [show (111 : Nat) % 128 = 111 by norm_num, show (111 : Nat) / 8 = 13 by norm_num,
        show (111 : Nat) % 8 = 7 by norm_num, if_true] at e ⊢
      rw [e]
      simp only [be_word, span_byte]
      simp
      omega
  · intro h
    refine ⟨tail_block m m.length, with_length (List.replicate 16 0) m.length, ?_, ?_, ?_⟩
    · unfold message_blocks final_blocks
      rw [h]
      simp
    · rw [tail_block_getD m m.length 14 (by norm_num), h]
      simp [be_word_of_le]
    · rw [tail_block_getD m m.length 15 (by norm_num), h]
      simp [be_word_of_le]

/-- C5, at the message of 112 bytes `0x61`. -/
theorem update_block_count_witness :
    (List.replicate 112 0x61).length < 2 ^ 64 ∧ (List.replicate 16 0).length = 16 ∧
    ∃ calls, (update record_block (List.replicate 112 0x61) (List.replicate 112 0x61).length []
          (List.replicate 16 0)).map Prod.fst = some calls
      ∧ ((List.replicate 112 0x61).length % 128 ≤ 111 →
          calls.length = (List.replicate 112 0x61).length / 128 + 1)
      ∧ (112 ≤ (List.replicate 112 0x61).length % 128 →
          calls.length = (List.replicate 112 0x61).length / 128 + 2
          ∧ calls[(List.replicate 112 0x61).length / 128]?
              = some (tail_block (List.replicate 112 0x61) (List.replicate 112 0x61).length)
          ∧ calls[(List.replicate 112 0x61).length / 128 + 1]?
              = some [0, 0, 0, 0, 0, 0, 0, 0, 0, 0, 0, 0, 0, 0,
                  (List.replicate 112 0x61).length >>> 61,
                  ((List.replicate 112 0x61).length <<< 3) % 2 ^ 64])
      ∧ ((List.replicate 112 0x61).length = 111 → ∃ b, calls = [b]
          ∧ (b.getD 13 0).testBit 7 = true ∧ b.getD 13 0 % 256 = 128)
      ∧ ((List.replicate 112 0x61).length = 112 → ∃ b1 b2, calls = [b1, b2]
          ∧ b1.getD 14 0 = 2 ^ 63 ∧ b1.getD 15 0 = 0) :=
  ⟨by simp, by simp,
    update_block_count (List.replicate 112 0x61) (List.replicate 16 0) (by simp) (by simp)⟩

theorem message_blocks_last (message : List Nat) (len : Nat) :
    ∃ pre X, X.length = 16 ∧ message_blocks message len = pre ++ [with_length X len] := by
  unfold message_blocks final_blocks
  by_cases h : len % 128 / 8 ≥ 14
  · refine ⟨(List.range (len / 128)).map (data_block message) ++ [tail_block message len],
      List.replicate 16 0, by simp, ?_⟩
    rw [if_pos h]
    simp
  · refine ⟨(List.range (len / 128)).map (data_block message), tail_block message len,
      by simp [tail_block], ?_⟩
    rw [if_neg h]

/-- C6: for `len < 2 ^ 64` the block `update` compresses last has word 15 equal
to `(len << 3) mod 2 ^ 64` and word 14 equal to `len >> 61`, and the two words
encode the exact bit length: `word14 * 2 ^ 64 + word15 = 8 * len`. -/
theorem update_length_field (m : List Nat) (current_block : List Nat)
    (hlen : m.length < 2 ^ 64) (hblk : current_block.length = 16) :
    ∃ calls b, (update record_block m m.length [] current_block).map Prod.fst = some calls
      ∧ calls.getLast? = some b
      ∧ b.getD 15 0 = (m.length <<< 3) % 2 ^ 64
      ∧ b.getD 14 0 = m.length >>> 61
      ∧ b.getD 14 0 * 2 ^ 64 + b.getD 15 0 = 8 * m.length := by
  obtain ⟨pre, X, hX, hmb⟩ := message_blocks_last m m.length
  have h15 : (with_length X m.length).getD 15 0 = (m.length <<< 3) % 2 ^ 64 := by
    simp only [with_length, List.getD_eq_getElem?_getD]
    rw [List.getElem?_set_ne (by omega), List.getElem?_set_self (by omega)]
    rfl
  have h14 : (with_length X m.length).getD 14 0 = m.length >>> 61 := by
    simp only [with_length, List.getD_eq_getElem?_getD]
    rw [List.getElem?_set_self (by simp; omega)]
    rfl
  refine ⟨message_blocks m m.length, with_length X m.length,
    update_record_block m m.length current_block hlen hblk, ?_, h15, h14, ?_⟩
  · rw [hmb]
    simp
  · rw [h15, h14, Nat.shiftLeft_eq, Nat.shiftRight_eq_div_pow]
    omega

/-- C6, at the message "abc". -/
theorem update_length_field_witness :
    ([0x61, 0x62, 0x63] : List Nat).length < 2 ^ 64 ∧ (List.replicate 16 0).length = 16 ∧
    ∃ calls b,
      (update record_block [0x61, 0x62, 0x63] ([0x61, 0x62, 0x63] : List Nat).length []
          (List.replicate 16 0)).map Prod.fst = some calls
      ∧ calls.getLast? = some b
      ∧ b.getD 15 0 = (([0x61, 0x62, 0x63] : List Nat).length <<< 3) % 2 ^ 64
      ∧ b.getD 14 0 = ([0x61, 0x62, 0x63] : List Nat).length >>> 61
      ∧ b.getD 14 0 * 2 ^ 64 + b.getD 15 0 = 8 * ([0x61, 0x62, 0x63] : List Nat).length :=
  ⟨by decide, by decide,
    update_length_field [0x61, 0x62, 0x63] (List.replicate 16 0) (by decide) (by decide)⟩

/-- C7: `copy_arr_bytes_into_arr_64_bits` sets destination word `i`, for each
`i < ceil(n / 8)`, to the big-endian value of bytes `8 i .. 8 i + 7` of the
input, byte positions at or beyond `n` counting as zero; a final partial chunk
of `r = n mod 8` bytes leaves the low `8 - r` bytes of its word zero. -/
theorem copy_writes_big_endian_words (bytes : List Nat) (n : Nat) (arr64 : List Nat)
    (hn : n < 2 ^ 64) (hroom : (n + 7) / 8 ≤ arr64.length) :
    ∃ out, copy_arr_bytes_into_arr_64_bits bytes n arr64 = some out
      ∧ (∀ i, i < (n + 7) / 8 → out[i]? = some (be_word bytes n i))
      ∧ (n % 8 ≠ 0 → ∃ w, out[n / 8]? = some w ∧ w % 2 ^ (8 * (8 - n % 8)) = 0) := by
  obtain ⟨out, ho, _, hget⟩ := copy_arr_spec bytes n arr64 hn
  refine ⟨out, ho, ?_, ?_⟩
  · intro i hi
    rw [hget i, if_pos ⟨hi, by omega⟩]
  · intro hr
    refine ⟨be_word bytes n (n / 8), ?_, ?_⟩
    · rw [hget (n / 8), if_pos ⟨by omega, by omega⟩]
    · have e : 8 * (8 - n % 8) = (63 - 8 * (n % 8)) + 1 := by omega
      rw [e, pow_succ, Nat.mul_comm]
      exact be_word_partial_dvd bytes n

/-- C7, at a span of 11 bytes written into a 2-word destination. -/
theorem copy_writes_big_endian_words_witness :
    (11 : Nat) < 2 ^ 64 ∧ (11 + 7) / 8 ≤ ([5, 6] : List Nat).length ∧
    ∃ out, copy_arr_bytes_into_arr_64_bits [1, 2, 3, 4, 5, 6, 7, 8, 9, 10, 11] 11 [5, 6]
        = some out
      ∧ (∀ i, i < (11 + 7) / 8 →
          out[i]? = some (be_word [1, 2, 3, 4, 5, 6, 7, 8, 9, 10, 11] 11 i))
      ∧ (11 % 8 ≠ 0 → ∃ w, out[11 / 8]? = some w ∧ w % 2 ^ (8 * (8 - 11 % 8)) = 0) :=
  ⟨by decide, by decide,
    copy_writes_big_endian_words [1, 2, 3, 4, 5, 6, 7, 8, 9, 10, 11] 11 [5, 6]
      (by decide) (by decide)⟩

/-- C8: `copy_arr_bytes_into_arr_64_bits` changes only the first `ceil(n / 8)`
words of the destination: the destination keeps its length, every word at an
index `≥ ceil(n / 8)` keeps its value, for `n = 0` the destination is unchanged,
and for `n` a multiple of 8 the word after the last full chunk is not written. -/
theorem copy_frame (bytes : List Nat) (n : Nat) (arr64 : List Nat) (hn : n < 2 ^ 64) :
    ∃ out, copy_arr_bytes_into_arr_64_bits bytes n arr64 = some out
      ∧ out.length = arr64.length
      ∧ (∀ i, (n + 7) / 8 ≤ i → out[i]? = arr64[i]?)
      ∧ (n = 0 → out = arr64)
      ∧ (n % 8 = 0 → out[n / 8]? = arr64[n / 8]?) := by
  obtain ⟨out, ho, hl, hget⟩ := copy_arr_spec bytes n arr64 hn
  have hframe : ∀ i, (n + 7) / 8 ≤ i → out[i]? = arr64[i]? := by
    intro i hi
    rw [hget i, if_neg (by omega)]
  refine ⟨out, ho, hl, hframe, ?_, ?_⟩
  · intro h0
    apply List.ext_getElem?
    intro i
    exact hframe i (by omega)
  · intro h8
    exact hframe (n / 8) (by omega)

/-- C8, at a span of 8 bytes written into a 3-word destination. -/
theorem copy_frame_witness :
    (8 : Nat) < 2 ^ 64 ∧
    ∃ out, copy_arr_bytes_into_arr_64_bits [1, 2, 3, 4, 5, 6, 7, 8] 8 [5, 6, 7] = some out
      ∧ out.length = ([5, 6, 7] : List Nat).length
      ∧ (∀ i, (8 + 7) / 8 ≤ i → out[i]? = ([5, 6, 7] : List Nat)[i]?)
      ∧ (8 = 0 → out = [5, 6, 7])
      ∧ (8 % 8 = 0 → out[8 / 8]? = ([5, 6, 7] : List Nat)[8 / 8]?) :=
  ⟨by decide, copy_frame [1, 2, 3, 4, 5, 6, 7, 8] 8 [5, 6, 7] (by decide)⟩

/-- C10: for `len < 2 ^ 64`, `update` terminates: its block loop breaks within
`len / 128 + 1` iterations, and the loop of the word loader breaks within
`ceil(n / 8)` iterations for every span of `n ≥ 1` bytes. -/
theorem update_terminates {σ : Type} (SHA512_compress : List Nat → σ → σ) (message : List Nat)
    (len : Nat) (H : σ) (current_block : List Nat) (hlen : len < 2 ^ 64)
    (hblk : current_block.length = 16) :
    (update_loop SHA512_compress message len (len / 128 + 1) 0 H current_block).isSome = true
      ∧ (update SHA512_compress message len H current_block).isSome = true
      ∧ ∀ (bytes : List Nat) (n : Nat) (arr64 : List Nat), 0 < n → n < 2 ^ 64 →
          (copy_loop bytes n ((n + 7) / 8) 0 0 arr64).isSome = true := by
  refine ⟨?_, ?_, ?_⟩
  · obtain ⟨ex, hex, _⟩ :=
      update_loop_spec SHA512_compress message len hlen (len / 128 + 1) 0 H current_block hblk
        (by omega) (by omega)
    simp only [Nat.mul_zero] at hex
    rw [hex]
    rfl
  · rw [update_spec SHA512_compress message len H current_block hlen hblk]
    rfl
  · intro bytes n arr64 h0 hn
    obtain ⟨out, ho, _⟩ := copy_loop_spec bytes n hn ((n + 7) / 8) 0 arr64 (by omega) (by omega)
    simp only [Nat.mul_zero] at ho
    rw [ho]
    rfl

/-- C10, at a message of 300 bytes with the recording compressor. -/
theorem update_terminates_witness :
    (300 : Nat) < 2 ^ 64 ∧ (List.replicate 16 0).length = 16 ∧
    (update_loop record_block (List.replicate 300 1) 300 (300 / 128 + 1) 0 []
        (List.replicate 16 0)).isSome = true
      ∧ (update record_block (List.replicate 300 1) 300 [] (List.replicate 16 0)).isSome = true
      ∧ ∀ (bytes : List Nat) (n : Nat) (arr64 : List Nat), 0 < n → n < 2 ^ 64 →
          (copy_loop bytes n ((n + 7) / 8) 0 0 arr64).isSome = true :=
  ⟨by decide, by decide,
    update_terminates record_block (List.replicate 300 1) 300 [] (List.replicate 16 0)
      (by decide) (by decide)⟩

/-! ## The digest extractor -/

theorem store_big_u64_getElem (buf : List Nat) (off v x : Nat) :
    (store_big_u64 buf off v)[x]?
      = if off ≤ x ∧ x < off + 8 ∧ x < buf.length then some ((v >>> (8 * (7 - (x - off)))) % 256)
        else buf[x]? := by
  simp only [store_big_u64, List.range_succ, List.range_zero, List.nil_append, List.foldl_append,
    List.foldl_cons, List.foldl_nil, getElem_opt_set_word, List.length_set]
  by_cases hw : off ≤ x ∧ x < off + 8 ∧ x < buf.length
  · obtain ⟨d, hd, rfl⟩ : ∃ d, d < 8 ∧ x = off + d := ⟨x - off, by omega, by omega⟩
    have e : off + d - off = d := by omega
    have hl := hw.2.2
    rw [if_pos hw, e]
    interval_cases d <;> simp at hl ⊢ <;> intros <;> omega
  · rw [if_neg hw]
    iterate 8 rw [if_neg (by omega)]

theorem length_store_big_u64 (buf : List Nat) (off v : Nat) :
    (store_big_u64 buf off v).length = buf.length := by
  simp [store_big_u64, List.range_succ]

theorem digest_fold_getElem (H : List Nat) (n x : Nat) :
    ((List.range n).foldl
        (fun final_hash index => store_big_u64 final_hash (index * 8) (H.getD index 0))
        (List.replicate 64 0))[x]?
      = if x < 64 then
          some (if x < 8 * n then (H.getD (x / 8) 0 >>> (8 * (7 - x % 8))) % 256 else 0)
        else none := by
  induction n with
  | zero =>
    rw [List.range_zero, List.foldl_nil, List.getElem?_replicate]
    split_ifs <;> first | rfl | omega
  | succ n ih =>
    have hlen : ∀ k, ((List.range k).foldl
        (fun final_hash index => store_big_u64 final_hash (index * 8) (H.getD index 0))
        (List.replicate 64 0)).length = 64 := by
      intro k
      induction k with
      | zero => simp
      | succ k ihk => rw [List.range_succ, List.foldl_append]; simpa [length_store_big_u64] using ihk
    rw [List.range_succ, List.foldl_append, List.foldl_cons, List.foldl_nil,
      store_big_u64_getElem, ih, hlen n]
    by_cases hw : n * 8 ≤ x ∧ x < n * 8 + 8 ∧ x < 64
    · have e1 : x / 8 = n := by omega
      have e2 : x - n * 8 = x % 8 := by omega
      rw [if_pos hw, if_pos hw.2.2, if_pos (by omega), e1, e2]
    · rw [if_neg hw]
      split_ifs <;> first | rfl | omega

theorem digest_getElem (H : List Nat) (hH : H.length = 8) (x : Nat) :
    (digest H)[x]?
      = if x < 64 then some ((H.getD (x / 8) 0 >>> (8 * (7 - x % 8))) % 256) else none := by
  unfold digest
  rw [hH, digest_fold_getElem H 8 x]
  by_cases hx : x < 64
  · rw [if_pos hx, if_pos hx, if_pos (by omega)]
  · rw [if_neg hx, if_neg hx]

theorem shiftRight_digit (w j : Nat) : (w >>> (8 * (7 - j))) % 256 = w / 256 ^ (7 - j) % 256 := by
  rw [Nat.shiftRight_eq_div_pow, Nat.pow_mul]

/-- C9: for every hash state `H` of 8 words, `digest` returns exactly 64 bytes,
byte `8 * i + j` being `(H[i] >> (8 * (7 - j))) mod 256`: the big-endian
encodings of the 8 state words in index order.  Reading the 64 bytes back as 8
big-endian 64-bit words returns `H` (whose words are below `2 ^ 64`). -/
theorem digest_big_endian (H : List Nat) (hH : H.length = 8) :
    (digest H).length = 64
      ∧ (∀ i j, i < 8 → j < 8 →
          (digest H)[8 * i + j]? = some ((H.getD i 0 >>> (8 * (7 - j))) % 256))
      ∧ ((∀ w, w ∈ H → w < 2 ^ 64) →
          (List.range 8).map (fun i => load_big_u64 ((digest H).drop (8 * i))) = H) := by
  have hget := digest_getElem H hH
  refine ⟨?_, ?_, ?_⟩
  · have h63 := hget 63
    have h64 := hget 64
    rw [if_pos (by norm_num)] at h63
    rw [if_neg (by norm_num)] at h64
    have a := (List.getElem?_eq_some.mp h63).1
    have b := List.getElem?_eq_none_iff.mp h64
    omega
  · intro i j hi hj
    rw [hget, if_pos (by omega)]
    have e1 : (8 * i + j) / 8 = i := by omega
    have e2 : (8 * i + j) % 8 = j := by omega
    rw [e1, e2]
  · intro hw
    apply List.ext_getElem?
    intro i
    by_cases hi : i < 8
    · rw [List.getElem?_map, List.getElem?_range hi, Option.map_some']
      have hwi : H.getD i 0 < 2 ^ 64 := by
        rw [List.getD_eq_getElem?_getD, List.getElem?_eq_getElem (by omega)]
        exact hw _ (List.getElem_mem _)
      have hd : ∀ b, b < 8 → ((digest H).drop (8 * i)).getD b 0
          = H.getD i 0 / 256 ^ (7 - b) % 256 := by
        intro b hb
        rw [getD_drop_zero, List.getD_eq_getElem?_getD, hget, if_pos (by omega),
          show (8 * i + b) / 8 = i by omega, show (8 * i + b) % 8 = b by omega, shiftRight_digit]
        rfl
      simp only [load_big_u64]
      rw [hd 0 (by norm_num), hd 1 (by norm_num), hd 2 (by norm_num), hd 3 (by norm_num),
        hd 4 (by norm_num), hd 5 (by norm_num), hd 6 (by norm_num), hd 7 (by norm_num)]
      have hs := be_digits_sum (H.getD i 0)
      rw [Nat.mod_eq_of_lt hwi] at hs
      have hgi : H[i]? = some (H.getD i 0) := by
        rw [List.getD_eq_getElem?_getD, List.getElem?_eq_getElem (by omega)]
        rfl
      rw [hgi]
      exact congrArg some hs
    · rw [List.getElem?_eq_none (by simp; omega), List.getElem?_eq_none (by omega)]


/-- C9, at the initial hash values. -/
theorem digest_big_endian_witness :
    initial_hash_values.length = 8
      ∧ (digest initial_hash_values).length = 64
      ∧ (∀ i j, i < 8 → j < 8 →
          (digest initial_hash_values)[8 * i + j]?
            = some ((initial_hash_values.getD i 0 >>> (8 * (7 - j))) % 256))
      ∧ ((∀ w, w ∈ initial_hash_values → w < 2 ^ 64) →
          (List.range 8).map (fun i => load_big_u64 ((digest initial_hash_values).drop (8 * i)))
            = initial_hash_values) :=
  ⟨by decide, digest_big_endian initial_hash_values (by decide)⟩

set_option maxRecDepth 100000 in
/-- C2: for the empty message, `update` on a freshly constructed engine followed
by `digest` returns the standard SHA-512 digest of the empty string, with the
initial hash values and the functions sigma, Ch and Maj as FIPS 180-4 defines
them. -/
theorem digest_empty_message (current_block : List Nat) (hblk : current_block.length = 16) :
    (update compress [] 0 initial_hash_values current_block).map (fun r => digest r.1)
      = some (be_bytes 64
          0xcf83e1357eefb8bdf1542850d66d8007d620e4050b5715dc83f4a921d36ce9ce47d0d13c5d85f2b0ff8318d2877eec2f63b931bd47417a81a538327af927da3e) := by
  rw [update_spec compress [] 0 initial_hash_values current_block (by norm_num) hblk]
  simp only [Option.map_some']
  decide!

/-- C2, at an engine whose working block is all zero. -/
theorem digest_empty_message_witness :
    (List.replicate 16 0).length = 16
      ∧ (update compress [] 0 initial_hash_values (List.replicate 16 0)).map
          (fun r => digest r.1)
        = some (be_bytes 64
            0xcf83e1357eefb8bdf1542850d66d8007d620e4050b5715dc83f4a921d36ce9ce47d0d13c5d85f2b0ff8318d2877eec2f63b931bd47417a81a538327af927da3e) :=
  ⟨by decide, digest_empty_message (List.replicate 16 0) (by decide)⟩

set_option maxRecDepth 100000 in
/-- C3: for the 3-byte message "abc", `update` on a freshly constructed engine
followed by `digest` returns the published SHA-512 test vector, with the
initial hash values and the functions sigma, Ch and Maj as FIPS 180-4 defines
them. -/
theorem digest_abc (current_block : List Nat) (hblk : current_block.length = 16) :
    (update compress [0x61, 0x62, 0x63] 3 initial_hash_values current_block).map
        (fun r => digest r.1)
      = some (be_bytes 64
          0xddaf35a193617abacc417349ae20413112e6fa4e89a97ea20a9eeee64b55d39a2192992a274fc1a836ba3c23a3feebbd454d4423643ce80e2a9ac94fa54ca49f) := by
  rw [update_spec compress [0x61, 0x62, 0x63] 3 initial_hash_values current_block (by norm_num)
    hblk]
  simp only [Option.map_some']
  decide!

/-- C3, at an engine whose working block is all zero. -/
theorem digest_abc_witness :
    (List.replicate 16 0).length = 16
      ∧ (update compress [0x61, 0x62, 0x63] 3 initial_hash_values (List.replicate 16 0)).map
          (fun r => digest r.1)
        = some (be_bytes 64
            0xddaf35a193617abacc417349ae20413112e6fa4e89a97ea20a9eeee64b55d39a2192992a274fc1a836ba3c23a3feebbd454d4423643ce80e2a9ac94fa54ca49f) :=
  ⟨by decide, digest_abc (List.replicate 16 0) (by decide)⟩

/-! ## One call per message -/

theorem length_with_length (block : List Nat) (len : Nat) :
    (with_length block len).length = block.length := by
  simp [with_length]

/-- Two calls of `update` on one engine: the second starts from the hash state
and working block the first left, and compresses the blocks of its own
message, padding and length field included. -/
theorem update_twice {σ : Type} (C : List Nat → σ → σ) (m1 m2 : List Nat) (H : σ)
    (blk : List Nat) (h1 : m1.length < 2 ^ 64) (h2 : m2.length < 2 ^ 64)
    (hblk : blk.length = 16) :
    ((update C m1 m1.length H blk).bind fun r => update C m2 m2.length r.1 r.2).map Prod.fst
      = some ((message_blocks m1 m1.length ++ message_blocks m2 m2.length).foldl
          (fun s b => C b s) H) := by
  rw [update_spec C m1 m1.length H blk h1 hblk, Option.some_bind,
    update_spec C m2 m2.length _ _ h2
      (by rw [length_with_length]; split <;> simp [tail_block]),
    List.foldl_append]
  rfl

set_option maxRecDepth 100000 in
/-- C11: `update` is one-shot.  It never resets the hash state and pads and
appends the length field of its own `len` on every call: after `update m1` and
`update m2` on one engine the state is the fold of the compressor over the
blocks of `m1` followed by the blocks of `m2`.  For `m1 = m2 =` the empty
message the digest after the two calls differs from the digest after the single
call `update (m1 ++ m2)` on a fresh engine. -/
theorem update_is_one_shot (current_block : List Nat) (hblk : current_block.length = 16) :
    (∀ (m1 m2 H : List Nat), m1.length < 2 ^ 64 → m2.length < 2 ^ 64 →
        ((update compress m1 m1.length H current_block).bind
            fun r => update compress m2 m2.length r.1 r.2).map Prod.fst
          = some ((message_blocks m1 m1.length ++ message_blocks m2 m2.length).foldl
              (fun s b => compress b s) H))
      ∧ ((update compress [] ([] : List Nat).length initial_hash_values current_block).bind
            fun r => update compress [] ([] : List Nat).length r.1 r.2).map
          (fun r => digest r.1)
        ≠ (update compress ([] ++ []) ([] ++ [] : List Nat).length initial_hash_values
            current_block).map (fun r => digest r.1) := by
  refine ⟨fun m1 m2 H h1 h2 => update_twice compress m1 m2 H current_block h1 h2 hblk, ?_⟩
  have hlen : ([] : List Nat).length < 2 ^ 64 := by decide
  have htwo := update_twice compress [] [] initial_hash_values current_block hlen hlen hblk
  cases hb : ((update compress [] ([] : List Nat).length initial_hash_values current_block).bind
      fun r => update compress [] ([] : List Nat).length r.1 r.2) with
  | none => rw [hb] at htwo; simp at htwo
  | some r =>
    rw [hb] at htwo
    simp only [Option.map_some', Option.some.injEq] at htwo
    rw [show ([] ++ [] : List Nat) = [] from rfl,
      update_spec compress [] ([] : List Nat).length initial_hash_values current_block hlen hblk]
    simp only [Option.map_some', htwo, ne_eq, Option.some.injEq]
    decide!

/-- C11, at an engine whose working block is all zero. -/
theorem update_is_one_shot_witness :
    (List.replicate 16 0).length = 16
      ∧ ((update compress [] ([] : List Nat).length initial_hash_values
              (List.replicate 16 0)).bind
            fun r => update compress [] ([] : List Nat).length r.1 r.2).map
          (fun r => digest r.1)
        ≠ (update compress ([] ++ []) ([] ++ [] : List Nat).length initial_hash_values
            (List.replicate 16 0)).map (fun r => digest r.1) :=
  ⟨by decide, (update_is_one_shot (List.replicate 16 0) (by decide)).2⟩

/-! ## The tail block -/

theorem testBit_of_dvd (a s : Nat) (h : a % (2 * 2 ^ s) = 0) : a.testBit s = false := by
  obtain ⟨c, rfl⟩ := Nat.dvd_of_mod_eq_zero h
  rw [Nat.testBit_to_div_mod]
  have e : 2 * 2 ^ s * c / 2 ^ s = 2 * c := by
    rw [Nat.mul_comm 2 (2 ^ s), Nat.mul_assoc]
    exact Nat.mul_div_cancel_left _ (Nat.two_pow_pos s)
  rw [e]
  simp

/-- C12: for a message with tail `t = len mod 128` in `1..127`, the block
`update` assembles for the tail, before the length field is written, has words
`0 .. t / 8 - 1` equal to the big-endian words of the tail, word `t / 8` equal
to the zero-filled big-endian load of the remaining `t mod 8` bytes with bit
`63 - 8 * (t mod 8)` set in addition, and every later word equal to 0; the bit
that is set was 0 in the loaded word. -/
theorem update_tail_block {σ : Type} (SHA512_compress : List Nat → σ → σ) (m : List Nat)
    (H : σ) (current_block : List Nat) (hlen : m.length < 2 ^ 64)
    (hblk : current_block.length = 16) (ht : 1 ≤ m.length % 128) :
    ∃ ex, update_loop SHA512_compress m m.length (m.length / 128 + 1) 0 H current_block = some ex
      ∧ ex.bit_postponed = false
      ∧ ex.current_block.length = 16
      ∧ (∀ j, j < m.length % 128 / 8 →
          ex.current_block[j]?
            = some (load_big_u64 (m.drop (m.length - m.length % 128 + 8 * j))))
      ∧ ex.current_block[m.length % 128 / 8]?
          = some (load_big_u64
                (copy_n (m.drop (m.length - m.length % 128 + 8 * (m.length % 128 / 8)))
                  (m.length % 128 % 8) (List.replicate 8 0))
              ||| 2 ^ (63 - 8 * (m.length % 128 % 8)))
      ∧ (load_big_u64
            (copy_n (m.drop (m.length - m.length % 128 + 8 * (m.length % 128 / 8)))
              (m.length % 128 % 8) (List.replicate 8 0))).testBit
          (63 - 8 * (m.length % 128 % 8)) = false
      ∧ (∀ j, m.length % 128 / 8 < j → j < 16 → ex.current_block[j]? = some 0) := by
  obtain ⟨ex, hex, _, hl, _, hnp⟩ :=
    update_loop_spec SHA512_compress m m.length hlen (m.length / 128 + 1) 0 H current_block hblk
      (by omega) (by omega)
  obtain ⟨hb, hcb, _⟩ := hnp (fun h => by omega)
  simp only [Nat.mul_zero] at hex
  have hword : ∀ j, j < 16 → ex.current_block[j]?
      = some (if j = m.length % 128 / 8 then
          be_word (m.drop (m.length - m.length % 128)) (m.length % 128) j
            ||| 2 ^ (63 - 8 * (m.length % 128 % 8))
        else be_word (m.drop (m.length - m.length % 128)) (m.length % 128) j) := by
    intro j hj
    rw [hcb]
    simp only [tail_block, List.getElem?_map, List.getElem?_range hj, Option.map_some']
  have hshort : load_big_u64
        (copy_n (m.drop (m.length - m.length % 128 + 8 * (m.length % 128 / 8)))
          (m.length % 128 % 8) (List.replicate 8 0))
      = be_word (m.drop (m.length - m.length % 128)) (m.length % 128) (m.length % 128 / 8) := by
    rw [← load_big_u64_short (m.drop (m.length - m.length % 128)) (m.length % 128)
      (m.length % 128 / 8) (by omega) (by omega), List.drop_drop]
    have e : m.length % 128 - 8 * (m.length % 128 / 8) = m.length % 128 % 8 := by omega
    rw [e]
  refine ⟨ex, hex, hb, hl, ?_, ?_, ?_, ?_⟩
  · intro j hj
    rw [hword j (by omega), if_neg (by omega),
      ← load_big_u64_full (m.drop (m.length - m.length % 128)) (m.length % 128) j (by omega),
      List.drop_drop]
  · rw [hword _ (by omega), if_pos rfl, hshort]
  · rw [hshort]
    exact testBit_of_dvd _ _ (be_word_partial_dvd _ _)
  · intro j h1 h2
    rw [hword j h2, if_neg (by omega), be_word_of_le _ _ _ (by omega)]

/-- C12, at the message "abc". -/
theorem update_tail_block_witness :
    ([0x61, 0x62, 0x63] : List Nat).length < 2 ^ 64 ∧ (List.replicate 16 0).length = 16
      ∧ 1 ≤ ([0x61, 0x62, 0x63] : List Nat).length % 128
      ∧ ∃ ex, update_loop record_block [0x61, 0x62, 0x63] ([0x61, 0x62, 0x63] : List Nat).length
            (([0x61, 0x62, 0x63] : List Nat).length / 128 + 1) 0 [] (List.replicate 16 0)
          = some ex
        ∧ ex.bit_postponed = false
        ∧ ex.current_block.length = 16 :=
  ⟨by decide, by decide, by decide,
    (update_tail_block record_block [0x61, 0x62, 0x63] [] (List.replicate 16 0)
      (by decide) (by decide) (by decide)).imp fun _ h => ⟨h.1, h.2.1, h.2.2.1⟩⟩

/-! ## The message schedule -/

theorem getD_set_word (l : List Nat) (k i v : Nat) :
    (l.set k v).getD i 0 = if k = i ∧ i < l.length then v else l.getD i 0 := by
  simp only [List.getD_eq_getElem?_getD, getElem_opt_set_word]
  split <;> rfl

theorem add64_chain (a b c d : Nat) :
    add64 (add64 (add64 a b) c) d = (a + b + c + d) % 2 ^ 64 := by
  simp only [add64, word_modulus]
  omega

/-- The schedule after the first `n` passes of the expansion loop: slots below
16 hold the block, slots `16 .. 16 + n - 1` satisfy the recurrence. -/
theorem schedule_loop_spec (B : List Nat) (hB : B.length = 16) (n : Nat) (hn : n ≤ 64) :
    ∃ W, (List.range' 16 n).foldl
          (fun ms word_index =>
            ms.set word_index
              (add64 (add64 (add64 (lowercase_sigma1 (ms.getD (word_index - 2) 0))
                        (ms.getD (word_index - 7) 0))
                      (lowercase_sigma0 (ms.getD (word_index - 15) 0)))
                (ms.getD (word_index - 16) 0)))
          (copy_n B 16 (List.replicate 80 0)) = W
      ∧ W.length = 80
      ∧ (∀ i, i < 16 → W.getD i 0 = B.getD i 0)
      ∧ (∀ i, 16 ≤ i → i < 16 + n → W.getD i 0 = schedule_recurrence W i) := by
  induction n with
  | zero =>
    refine ⟨_, rfl, ?_, ?_, ?_⟩
    · simp [copy_n, hB]
    · intro i hi
      simp only [List.range', List.foldl_nil, copy_n, List.getD_eq_getElem?_getD]
      rw [List.getElem?_append_left (by simp [hB]; omega), List.getElem?_take_of_lt hi]
    · intro i h1 h2
      omega
  | succ n ih =>
    obtain ⟨W, hW, hlen, hlow, hrec⟩ := ih (by omega)
    rw [List.range'_1_concat, List.foldl_append, hW]
    refine ⟨_, rfl, ?_, ?_, ?_⟩
    · simp [hlen]
    · intro i hi
      simp only [List.foldl_cons, List.foldl_nil]
      rw [getD_set_word, if_neg (by omega), hlow i hi]
    · intro i h1 h2
      simp only [List.foldl_cons, List.foldl_nil]
      have hsame : ∀ j, j < 16 + n →
          (W.set (16 + n)
              (add64 (add64 (add64 (lowercase_sigma1 (W.getD (16 + n - 2) 0))
                        (W.getD (16 + n - 7) 0))
                      (lowercase_sigma0 (W.getD (16 + n - 15) 0)))
                (W.getD (16 + n - 16) 0))).getD j 0 = W.getD j 0 := by
        intro j hj
        rw [getD_set_word, if_neg (by omega)]
      unfold schedule_recurrence
      rw [hsame (i - 2) (by omega), hsame (i - 7) (by omega), hsame (i - 15) (by omega),
        hsame (i - 16) (by omega)]
      by_cases hi : i = 16 + n
      · subst hi
        rw [getD_set_word, if_pos ⟨rfl, by omega⟩, add64_chain]
      · rw [hsame i (by omega), hrec i h1 (by omega)]
        rfl

/-- C13: for every 16-word block `B`, the 80-word message schedule `W` that
`compress` builds satisfies `W[i] = B[i]` for `i < 16` and
`W[i] = (sigma1 (W[i-2]) + W[i-7] + sigma0 (W[i-15]) + W[i-16]) mod 2 ^ 64`
for `16 ≤ i < 80`, with the lowercase sigma functions. -/
theorem message_schedule_recurrence (B : List Nat) (hB : B.length = 16) :
    (message_schedule B).length = 80
      ∧ (∀ i, i < 16 → (message_schedule B).getD i 0 = B.getD i 0)
      ∧ (∀ i, 16 ≤ i → i < 80 →
          (message_schedule B).getD i 0
            = (lowercase_sigma1 ((message_schedule B).getD (i - 2) 0)
                + (message_schedule B).getD (i - 7) 0
                + lowercase_sigma0 ((message_schedule B).getD (i - 15) 0)
                + (message_schedule B).getD (i - 16) 0) % 2 ^ 64) := by
  obtain ⟨W, hW, hlen, hlow, hrec⟩ := schedule_loop_spec B hB 64 (le_refl _)
  have e : message_schedule B = W := hW
  rw [e]
  exact ⟨hlen, hlow, fun i h1 h2 => hrec i h1 (by omega)⟩

/-- C13, at the block of the empty message. -/
theorem message_schedule_recurrence_witness :
    ([2 ^ 63, 0, 0, 0, 0, 0, 0, 0, 0, 0, 0, 0, 0, 0, 0, 0] : List Nat).length = 16
      ∧ (message_schedule [2 ^ 63, 0, 0, 0, 0, 0, 0, 0, 0, 0, 0, 0, 0, 0, 0, 0]).length = 80 :=
  ⟨by decide,
    (message_schedule_recurrence [2 ^ 63, 0, 0, 0, 0, 0, 0, 0, 0, 0, 0, 0, 0, 0, 0, 0]
      (by decide)).1⟩

/-! ## The rounds and the feed-forward -/

theorem round_eq_spec_round (ms : List Nat) (v : WorkingVars) (i : Nat) :
    round ms v i = spec_round constants ms i v := by
  have e5 : ∀ a b c d e : Nat,
      add64 (add64 (add64 (add64 a b) c) d) e = (a + b + c + d + e) % 2 ^ 64 := by
    intro a b c d e
    simp only [add64, word_modulus]
    omega
  have e2 : ∀ a b : Nat, add64 a b = (a + b) % 2 ^ 64 := fun a b => rfl
  simp only [round, spec_round, e5]
  simp only [e2]

theorem rounds_eq_spec_rounds (ms : List Nat) (v0 : WorkingVars) (n : Nat) :
    (List.range n).foldl (round ms) v0 = spec_rounds constants ms v0 n := by
  induction n with
  | zero => rfl
  | succ n ih =>
    rw [List.range_succ, List.foldl_append, ih]
    simp only [List.foldl_cons, List.foldl_nil, spec_rounds, round_eq_spec_round]

theorem eq_of_length_eight (H : List Nat) (hH : H.length = 8) :
    H = [H.getD 0 0, H.getD 1 0, H.getD 2 0, H.getD 3 0, H.getD 4 0, H.getD 5 0, H.getD 6 0,
      H.getD 7 0] := by
  match H, hH with
  | [_, _, _, _, _, _, _, _], _ => rfl

/-- C14: for every hash state `H` and block `B`, `compress` leaves
`HashState[k] = (H[k] + v[k]) mod 2 ^ 64` for `k = 0 .. 7`, where
`v = (a, b, c, d, e, f, g, h)` results from starting at `(a .. h) = H` and
applying the round step for `i = 0 .. 79` in order, with `K` the table of 80
constants and `W` the schedule of `B`. -/
theorem compress_feed_forward (H B : List Nat) (hH : H.length = 8) :
    compress B H
      = [(H.getD 0 0
            + (spec_rounds constants (message_schedule B)
                ⟨H.getD 0 0, H.getD 1 0, H.getD 2 0, H.getD 3 0, H.getD 4 0, H.getD 5 0,
                  H.getD 6 0, H.getD 7 0⟩ 80).a) % 2 ^ 64,
         (H.getD 1 0
            + (spec_rounds constants (message_schedule B)
                ⟨H.getD 0 0, H.getD 1 0, H.getD 2 0, H.getD 3 0, H.getD 4 0, H.getD 5 0,
                  H.getD 6 0, H.getD 7 0⟩ 80).b) % 2 ^ 64,
         (H.getD 2 0
            + (spec_rounds constants (message_schedule B)
                ⟨H.getD 0 0, H.getD 1 0, H.getD 2 0, H.getD 3 0, H.getD 4 0, H.getD 5 0,
                  H.getD 6 0, H.getD 7 0⟩ 80).c) % 2 ^ 64,
         (H.getD 3 0
            + (spec_rounds constants (message_schedule B)
                ⟨H.getD 0 0, H.getD 1 0, H.getD 2 0, H.getD 3 0, H.getD 4 0, H.getD 5 0,
                  H.getD 6 0, H.getD 7 0⟩ 80).d) % 2 ^ 64,
         (H.getD 4 0
            + (spec_rounds constants (message_schedule B)
                ⟨H.getD 0 0, H.getD 1 0, H.getD 2 0, H.getD 3 0, H.getD 4 0, H.getD 5 0,
                  H.getD 6 0, H.getD 7 0⟩ 80).e) % 2 ^ 64,
         (H.getD 5 0
            + (spec_rounds constants (message_schedule B)
                ⟨H.getD 0 0, H.getD 1 0, H.getD 2 0, H.getD 3 0, H.getD 4 0, H.getD 5 0,
                  H.getD 6 0, H.getD 7 0⟩ 80).f) % 2 ^ 64,
         (H.getD 6 0
            + (spec_rounds constants (message_schedule B)
                ⟨H.getD 0 0, H.getD 1 0, H.getD 2 0, H.getD 3 0, H.getD 4 0, H.getD 5 0,
                  H.getD 6 0, H.getD 7 0⟩ 80).g) % 2 ^ 64,
         (H.getD 7 0
            + (spec_rounds constants (message_schedule B)
                ⟨H.getD 0 0, H.getD 1 0, H.getD 2 0, H.getD 3 0, H.getD 4 0, H.getD 5 0,
                  H.getD 6 0, H.getD 7 0⟩ 80).h) % 2 ^ 64] := by
  have hshape := eq_of_length_eight H hH
  generalize H.getD 0 0 = h0 at hshape ⊢
  generalize H.getD 1 0 = h1 at hshape ⊢
  generalize H.getD 2 0 = h2 at hshape ⊢
  generalize H.getD 3 0 = h3 at hshape ⊢
  generalize H.getD 4 0 = h4 at hshape ⊢
  generalize H.getD 5 0 = h5 at hshape ⊢
  generalize H.getD 6 0 = h6 at hshape ⊢
  generalize H.getD 7 0 = h7 at hshape ⊢
  subst hshape
  simp only [compress, rounds_eq_spec_rounds, List.getD_cons_zero, List.getD_cons_succ,
    List.set_cons_zero, List.set_cons_succ]
  rfl

/-- C14, at the initial hash values and the block of the empty message. -/
theorem compress_feed_forward_witness :
    initial_hash_values.length = 8
      ∧ (compress [2 ^ 63, 0, 0, 0, 0, 0, 0, 0, 0, 0, 0, 0, 0, 0, 0, 0] initial_hash_values).getD
          0 0
        = (initial_hash_values.getD 0 0
            + (spec_rounds constants
                (message_schedule [2 ^ 63, 0, 0, 0, 0, 0, 0, 0, 0, 0, 0, 0, 0, 0, 0, 0])
                ⟨initial_hash_values.getD 0 0, initial_hash_values.getD 1 0,
                  initial_hash_values.getD 2 0, initial_hash_values.getD 3 0,
                  initial_hash_values.getD 4 0, initial_hash_values.getD 5 0,
                  initial_hash_values.getD 6 0, initial_hash_values.getD 7 0⟩ 80).a) % 2 ^ 64 :=
  ⟨by decide,
    by rw [compress_feed_forward initial_hash_values
        [2 ^ 63, 0, 0, 0, 0, 0, 0, 0, 0, 0, 0, 0, 0, 0, 0, 0] (by decide)]; rfl⟩

/-! ## The working block between calls -/

/-- C16: the result of `update` does not depend on what `current_block` held
before the call: for every message, every hash state and any two prior
contents of the working block, `update` gives the same final hash state (and
leaves the same block), and hands the same blocks to the compressor. -/
theorem update_ignores_prior_block {σ : Type} (SHA512_compress : List Nat → σ → σ)
    (message : List Nat) (len : Nat) (H : σ) (block1 block2 : List Nat) (hlen : len < 2 ^ 64)
    (h1 : block1.length = 16) (h2 : block2.length = 16) :
    update SHA512_compress message len H block1 = update SHA512_compress message len H block2
      ∧ update record_block message len [] block1 = update record_block message len [] block2 := by
  rw [update_spec SHA512_compress message len H block1 hlen h1,
    update_spec SHA512_compress message len H block2 hlen h2,
    update_spec record_block message len [] block1 hlen h1,
    update_spec record_block message len [] block2 hlen h2]
  exact ⟨rfl, rfl⟩

/-- C16, at the message "abc" and two different working blocks. -/
theorem update_ignores_prior_block_witness :
    (3 : Nat) < 2 ^ 64 ∧ (List.replicate 16 0).length = 16 ∧ (List.replicate 16 7).length = 16
      ∧ update compress [0x61, 0x62, 0x63] 3 initial_hash_values (List.replicate 16 0)
        = update compress [0x61, 0x62, 0x63] 3 initial_hash_values (List.replicate 16 7) :=
  ⟨by decide, by decide, by decide,
    (update_ignores_prior_block compress [0x61, 0x62, 0x63] 3 initial_hash_values
      (List.replicate 16 0) (List.replicate 16 7) (by decide) (by decide) (by decide)).1⟩

/-! ## The round constants -/

set_option maxRecDepth 100000 in
theorem first_primes_eq_filter :
    first_primes
      = (List.range 410).filter fun n => @decide (Nat.Prime n) (Nat.decidablePrime1 n) := by
  decide!

set_option maxRecDepth 100000 in
/-- C18: each of the 80 entries of the round-constant table of `compress` is
the SHA-512 standard constant, the first 64 bits of the fractional part of the
cube root of the corresponding prime.  The primes are the 80 primes below 410,
in increasing order; for every `i < 80`, with `p` the prime of index `i`, `c`
the integer part of its cube root and `x = constants[i] + 2 ^ 64 * c`,
`x ^ 3 ≤ p * 2 ^ 192 < (x + 1) ^ 3`, with `constants[i] < 2 ^ 64`. -/
theorem constants_are_cube_root_bits :
    constants.length = 80
      ∧ first_primes = (List.range 410).filter (fun n => decide (Nat.Prime n))
      ∧ first_primes.length = 80
      ∧ ∀ i, i < 80 →
          floor_cbrt (nth_prime i) ^ 3 ≤ nth_prime i
          ∧ nth_prime i < (floor_cbrt (nth_prime i) + 1) ^ 3
          ∧ constants.getD i 0 < 2 ^ 64
          ∧ (constants.getD i 0 + 2 ^ 64 * floor_cbrt (nth_prime i)) ^ 3 ≤ nth_prime i * 2 ^ 192
          ∧ nth_prime i * 2 ^ 192
              < (constants.getD i 0 + 2 ^ 64 * floor_cbrt (nth_prime i) + 1) ^ 3 := by
  refine ⟨by decide, ?_, by decide, by decide!⟩
  rw [first_primes_eq_filter]
  congr 1
  funext n
  congr

/-! ## Padding is injective -/

theorem exists_pad_zeros (len : Nat) :
    ∃ k, (len + 1 + k + 16) % 128 = 0 ∧ ∀ j, j < k → (len + 1 + j + 16) % 128 ≠ 0 := by
  by_cases h : len % 128 ≤ 111
  · exact ⟨111 - len % 128, by omega, fun j hj => by omega⟩
  · exact ⟨239 - len % 128, by omega, fun j hj => by omega⟩

theorem span_byte_lt (bytes : List Nat) (n k : Nat) (hb : ∀ b, b ∈ bytes → b < 256) :
    span_byte bytes n k < 256 := by
  unfold span_byte
  split
  · rw [List.getD_eq_getElem?_getD]
    by_cases hk : k < bytes.length
    · rw [List.getElem?_eq_getElem hk]
      exact hb _ (List.getElem_mem _)
    · rw [List.getElem?_eq_none (by omega)]
      decide
  · decide

theorem digits_inj (a0 a1 a2 a3 a4 a5 a6 a7 b0 b1 b2 b3 b4 b5 b6 b7 : Nat)
    (ha1 : a1 < 256) (ha2 : a2 < 256) (ha3 : a3 < 256) (ha4 : a4 < 256)
    (ha5 : a5 < 256) (ha6 : a6 < 256) (ha7 : a7 < 256) (hb1 : b1 < 256)
    (hb2 : b2 < 256) (hb3 : b3 < 256) (hb4 : b4 < 256) (hb5 : b5 < 256) (hb6 : b6 < 256)
    (hb7 : b7 < 256)
    (h : a0 * 2 ^ 56 + a1 * 2 ^ 48 + a2 * 2 ^ 40 + a3 * 2 ^ 32 + a4 * 2 ^ 24 + a5 * 2 ^ 16
          + a6 * 2 ^ 8 + a7
        = b0 * 2 ^ 56 + b1 * 2 ^ 48 + b2 * 2 ^ 40 + b3 * 2 ^ 32 + b4 * 2 ^ 24 + b5 * 2 ^ 16
          + b6 * 2 ^ 8 + b7) :
    a0 = b0 ∧ a1 = b1 ∧ a2 = b2 ∧ a3 = b3 ∧ a4 = b4 ∧ a5 = b5 ∧ a6 = b6 ∧ a7 = b7 := by
  omega

/-- Words of byte strings with bytes below 256 are equal only when the bytes
are. -/
theorem be_word_inj (bytes1 bytes2 : List Nat) (n g j : Nat)
    (h1 : ∀ b, b ∈ bytes1 → b < 256) (h2 : ∀ b, b ∈ bytes2 → b < 256)
    (h : be_word bytes1 n g = be_word bytes2 n g) (hj : j < 8) :
    span_byte bytes1 n (8 * g + j) = span_byte bytes2 n (8 * g + j) := by
  have l1 := span_byte_lt bytes1 n
  have l2 := span_byte_lt bytes2 n
  have d := digits_inj _ _ _ _ _ _ _ _ _ _ _ _ _ _ _ _
    (l1 (8 * g + 1) h1) (l1 (8 * g + 2) h1) (l1 (8 * g + 3) h1)
    (l1 (8 * g + 4) h1) (l1 (8 * g + 5) h1) (l1 (8 * g + 6) h1) (l1 (8 * g + 7) h1)
    (l2 (8 * g + 1) h2) (l2 (8 * g + 2) h2) (l2 (8 * g + 3) h2)
    (l2 (8 * g + 4) h2) (l2 (8 * g + 5) h2) (l2 (8 * g + 6) h2) (l2 (8 * g + 7) h2) h
  interval_cases j
  · exact d.1
  · exact d.2.1
  · exact d.2.2.1
  · exact d.2.2.2.1
  · exact d.2.2.2.2.1
  · exact d.2.2.2.2.2.1
  · exact d.2.2.2.2.2.2.1
  · exact d.2.2.2.2.2.2.2

/-- The word of index `g` of the blocks of a message, for a word that starts
inside the message: the word of the message, plus the terminating bit when it
falls into this word. -/
theorem message_blocks_word (m : List Nat) (g : Nat) (hm : m.length < 2 ^ 64)
    (hg : 8 * g < m.length) :
    ((message_blocks m m.length).getD (g / 16) []).getD (g % 16) 0
      = be_word m m.length g
          + (if g = m.length / 8 then 2 ^ (63 - 8 * (m.length % 8)) else 0) := by
  obtain ⟨k, hk, hmin⟩ := exists_pad_zeros m.length
  rw [message_blocks_eq_parse m k hm hk hmin,
    parse_blocks_eq _ (by rw [length_padded_message]; exact hk)]
  have hi : g / 16 < (padded_message m k).length / 128 := by
    rw [length_padded_message]; omega
  have hj : g % 16 < 16 := Nat.mod_lt _ (by norm_num)
  simp only [List.getD_eq_getElem?_getD, List.getElem?_map, List.getElem?_range hi,
    List.getElem?_range hj, Option.map_some', Option.getD_some]
  have e : 16 * (g / 16) + g % 16 = g := by omega
  rw [e, be_word_padded_low m k g (by omega)]

theorem with_length_inj (X1 X2 : List Nat) (len1 len2 : Nat) (h1 : X1.length = 16)
    (h2 : X2.length = 16) (hl1 : len1 < 2 ^ 64) (hl2 : len2 < 2 ^ 64)
    (h : with_length X1 len1 = with_length X2 len2) : len1 = len2 := by
  have a : (with_length X1 len1).getD 15 0 = (with_length X2 len2).getD 15 0 := by rw [h]
  have b : (with_length X1 len1).getD 14 0 = (with_length X2 len2).getD 14 0 := by rw [h]
  simp only [with_length, List.getD_eq_getElem?_getD] at a b
  rw [List.getElem?_set_ne (by omega), List.getElem?_set_self (by omega),
    List.getElem?_set_ne (by omega), List.getElem?_set_self (by omega)] at a
  rw [List.getElem?_set_self (by simp; omega), List.getElem?_set_self (by simp; omega)] at b
  simp only [Option.getD_some, Nat.shiftLeft_eq, Nat.shiftRight_eq_div_pow] at a b
  omega

/-- Messages of bytes with equal blocks are equal. -/
theorem message_blocks_inj (m1 m2 : List Nat) (h1 : m1.length < 2 ^ 64)
    (h2 : m2.length < 2 ^ 64) (hb1 : ∀ b, b ∈ m1 → b < 256) (hb2 : ∀ b, b ∈ m2 → b < 256)
    (h : message_blocks m1 m1.length = message_blocks m2 m2.length) : m1 = m2 := by
  have hlen : m1.length = m2.length := by
    obtain ⟨pre1, X1, hX1, e1⟩ := message_blocks_last m1 m1.length
    obtain ⟨pre2, X2, hX2, e2⟩ := message_blocks_last m2 m2.length
    have hlast : (message_blocks m1 m1.length).getLast? = (message_blocks m2 m2.length).getLast? := by
      rw [h]
    rw [e1, e2] at hlast
    simp at hlast
    exact with_length_inj X1 X2 _ _ hX1 hX2 h1 h2 hlast
  apply List.ext_getElem?
  intro x
  by_cases hx : x < m1.length
  · have hg : 8 * (x / 8) < m1.length := by omega
    have w1 := message_blocks_word m1 (x / 8) h1 hg
    have w2 := message_blocks_word m2 (x / 8) h2 (by omega)
    rw [h, w2, ← hlen] at w1
    have hw : be_word m1 m1.length (x / 8) = be_word m2 m1.length (x / 8) := by omega
    have hs := be_word_inj m1 m2 m1.length (x / 8) (x % 8) hb1 hb2 hw
      (Nat.mod_lt _ (by norm_num))
    have e : 8 * (x / 8) + x % 8 = x := by omega
    rw [e] at hs
    simp only [span_byte, if_pos hx, List.getD_eq_getElem?_getD] at hs
    rw [List.getElem?_eq_getElem hx, List.getElem?_eq_getElem (by omega)] at hs ⊢
    simp only [Option.getD_some] at hs
    rw [hs]
  · rw [List.getElem?_eq_none (by omega), List.getElem?_eq_none (by omega)]

/-- C17: the padding performed by `update` is injective: for two distinct
messages of bytes, each of fewer than `2 ^ 64` bytes, the sequences of 16-word
blocks that `update` hands to the compressor differ. -/
theorem padding_injective (m1 m2 : List Nat) (block1 block2 : List Nat)
    (h1 : m1.length < 2 ^ 64) (h2 : m2.length < 2 ^ 64) (hb1 : ∀ b, b ∈ m1 → b < 256)
    (hb2 : ∀ b, b ∈ m2 → b < 256) (hblk1 : block1.length = 16) (hblk2 : block2.length = 16)
    (hne : m1 ≠ m2) :
    (update record_block m1 m1.length [] block1).map Prod.fst
      ≠ (update record_block m2 m2.length [] block2).map Prod.fst := by
  rw [update_record_block m1 m1.length block1 h1 hblk1,
    update_record_block m2 m2.length block2 h2 hblk2]
  intro h
  exact hne (message_blocks_inj m1 m2 h1 h2 hb1 hb2 (Option.some.inj h))

/-- C17, at the messages "a" and "b". -/
theorem padding_injective_witness :
    ([0x61] : List Nat).length < 2 ^ 64 ∧ ([0x62] : List Nat).length < 2 ^ 64
      ∧ (∀ b, b ∈ ([0x61] : List Nat) → b < 256) ∧ (∀ b, b ∈ ([0x62] : List Nat) → b < 256)
      ∧ (List.replicate 16 0).length = 16 ∧ ([0x61] : List Nat) ≠ [0x62]
      ∧ (update record_block [0x61] ([0x61] : List Nat).length [] (List.replicate 16 0)).map
          Prod.fst
        ≠ (update record_block [0x62] ([0x62] : List Nat).length [] (List.replicate 16 0)).map
          Prod.fst :=
  ⟨by decide, by decide, by decide, by decide, by decide, by decide,
    padding_injective [0x61] [0x62] (List.replicate 16 0) (List.replicate 16 0) (by decide)
      (by decide) (by decide) (by decide) (by decide) (by decide) (by decide)⟩

/-! ## Every access is in range -/

theorem copy_loop_checked_eq (bytes : List Nat) (n : Nat) (hn : n < 2 ^ 64)
    (hspan : n ≤ bytes.length) :
    ∀ (fuel k : Nat) (arr : List Nat), 8 * k < n → (n + 7) / 8 ≤ arr.length →
      copy_loop_checked bytes n fuel (8 * k) k arr = copy_loop bytes n fuel (8 * k) k arr := by
  intro fuel
  induction fuel with
  | zero => intro k arr _ _; rfl
  | succ fuel ih =>
    intro k arr h1 h2
    have hsub : sub64 n (8 * k) = n - 8 * k := sub64_of_le (by omega) hn
    unfold copy_loop_checked copy_loop
    simp only [hsub]
    rw [if_pos (by omega)]
    by_cases hlt : n - 8 * k < 8
    · have hge : ¬ (n - 8 * k ≥ 8) := by omega
      have hle : n - 8 * k ≤ 8 := by omega
      have hg : 8 * k + (n - 8 * k) ≤ bytes.length ∧ n - 8 * k < 8 ∧ k < arr.length :=
        ⟨by omega, hlt, by omega⟩
      simp only [hge, hlt, hle, hg, if_true, if_false, Option.some_bind, and_self]
    · have hge : n - 8 * k ≥ 8 := by omega
      have hg : 8 * k + 8 ≤ bytes.length ∧ k < arr.length := ⟨by omega, by omega⟩
      simp only [hge, hlt, hg, if_true, if_false, Option.some_bind, and_self]
      by_cases heq : n - 8 * k ≤ 8
      · simp only [heq, if_true]
      · simp only [heq, if_false]
        have ha1 : add64 (8 * k) 8 = 8 * (k + 1) := by
          rw [add64_of_lt (by omega)]; ring
        have ha2 : add64 k 1 = k + 1 := add64_of_lt (by omega)
        rw [ha1, ha2]
        exact ih (k + 1) _ (by omega) (by simpa using h2)

theorem copy_checked_eq (bytes : List Nat) (n : Nat) (arr : List Nat) (hn : n < 2 ^ 64)
    (hspan : n ≤ bytes.length) (hroom : (n + 7) / 8 ≤ arr.length) :
    copy_arr_bytes_into_arr_64_bits_checked bytes n arr
      = copy_arr_bytes_into_arr_64_bits bytes n arr := by
  unfold copy_arr_bytes_into_arr_64_bits_checked copy_arr_bytes_into_arr_64_bits
  by_cases h0 : n > 0
  · simp only [h0, if_true]
    exact copy_loop_checked_eq bytes n hn hspan (n / 8 + 1) 0 arr (by omega) hroom
  · simp only [h0, if_false]

theorem length_fill_from (arr : List Nat) (first v : Nat) (h : first ≤ arr.length) :
    (fill_from arr first v).length = arr.length := by
  simp [fill_from]
  omega

theorem update_loop_checked_eq {σ : Type} (C : List Nat → σ → σ) (message : List Nat)
    (hlen : message.length < 2 ^ 64) :
    ∀ (fuel j : Nat) (H : σ) (blk : List Nat), blk.length = 16 → 128 * j ≤ message.length →
      update_loop_checked C message message.length fuel (128 * j) H blk
        = update_loop C message message.length fuel (128 * j) H blk := by
  intro fuel
  induction fuel with
  | zero => intro j H blk _ _; rfl
  | succ fuel ih =>
    intro j H blk hblk h1
    have hsub : sub64 message.length (128 * j) = message.length - 128 * j :=
      sub64_of_le h1 hlen
    unfold update_loop_checked update_loop
    simp only [hsub, blocks_size_bytes]
    rw [if_pos h1]
    by_cases hge : message.length - 128 * j ≥ 128
    · have hc := copy_checked_eq (message.drop (128 * j)) 128 blk (by norm_num)
        (by rw [List.length_drop]; omega) (by omega)
      simp only [hge, if_true, hc, copy_full_block message j blk hblk, Option.map_some',
        Option.some_bind]
      by_cases heq : message.length - 128 * j = 128
      · simp only [heq, if_true]
      · have hlt : ¬ (message.length - 128 * j < 128) := by omega
        simp only [heq, hlt, if_false]
        have ha : add64 (128 * j) 128 = 128 * (j + 1) := by
          rw [add64_of_lt (by omega)]; ring
        rw [ha]
        exact ih (j + 1) _ _ (by simp [data_block]) (by omega)
    · have hne : ¬ (message.length - 128 * j = 128) := by omega
      have hlt : message.length - 128 * j < 128 := by omega
      have hidx : (message.length - 128 * j) / 8 < blk.length := by omega
      have hfl : (fill_from blk ((message.length - 128 * j) / 8) 0).length = 16 := by
        rw [length_fill_from _ _ _ (by omega), hblk]
      have hc := copy_checked_eq (message.drop (128 * j)) (message.length - 128 * j)
        (fill_from blk ((message.length - 128 * j) / 8) 0) (by omega)
        (by rw [List.length_drop]) (by omega)
      have hshift : 7 ≤ (63 : Int) - ((message.length - 128 * j) % 8 : Nat) * 8
          ∧ (63 : Int) - ((message.length - 128 * j) % 8 : Nat) * 8 ≤ 63 := by
        omega
      obtain ⟨out, ho, _⟩ := copy_arr_spec (message.drop (128 * j)) (message.length - 128 * j)
        (fill_from blk ((message.length - 128 * j) / 8) 0) (by omega)
      simp only [hge, hne, hlt, hidx, hc, ho, hshift, if_true, if_false, Option.some_bind,
        Option.map_some', and_self]

/-- The checks are live: a buffer shorter than `len` is caught at the first read
past its end. -/
theorem update_checked_short_buffer :
    update_checked record_block [1, 2] 3 [] (List.replicate 16 0) = none := by
  decide!

/-- C15: for a message buffer of exactly `len < 2 ^ 64` bytes no access of
`update`, or of the word loader it calls, is out of range: with every access
checked (`len - message_index` and `num_bytes - index_byte` do not wrap, every
message byte read has an index below `len`, every word of `current_block` read
or written has an index below 16, every copy into `emergency_buffer` is of
fewer than 8 bytes, the shift amount lies in `7 .. 63`) `update` runs to its
end with the same result.  The word index of the terminating bit is at most 15
and the shift amount is in `7 .. 63` for every tail length. -/
theorem update_accesses_in_range {σ : Type} (SHA512_compress : List Nat → σ → σ)
    (message : List Nat) (H : σ) (current_block : List Nat) (hlen : message.length < 2 ^ 64)
    (hblk : current_block.length = 16) :
    update_checked SHA512_compress message message.length H current_block
        = update SHA512_compress message message.length H current_block
      ∧ (update_checked SHA512_compress message message.length H current_block).isSome = true
      ∧ ∀ t : Nat, t < 128 →
          t / 8 ≤ 15 ∧ 7 ≤ (63 : Int) - (t % 8 : Nat) * 8 ∧ (63 : Int) - (t % 8 : Nat) * 8 ≤ 63 := by
  have heq : update_checked SHA512_compress message message.length H current_block
      = update SHA512_compress message message.length H current_block := by
    obtain ⟨ex, hex, _, hl, _⟩ :=
      update_loop_spec SHA512_compress message message.length hlen (message.length / 128 + 1) 0
        H current_block hblk (by omega) (by omega)
    have hck := update_loop_checked_eq SHA512_compress message hlen (message.length / 128 + 1) 0
      H current_block hblk (by omega)
    unfold update_checked update
    simp only [blocks_size_bytes, Nat.mul_zero] at hex hck ⊢
    rw [hck, hex]
    simp only [Option.some_bind, Option.map_some', hl]
    rw [if_pos (by norm_num)]
  refine ⟨heq, ?_, ?_⟩
  · rw [heq, update_spec SHA512_compress message message.length H current_block hlen hblk]
    rfl
  · intro t ht
    omega

/-- C15, at the message "abc". -/
theorem update_accesses_in_range_witness :
    ([0x61, 0x62, 0x63] : List Nat).length < 2 ^ 64 ∧ (List.replicate 16 0).length = 16
      ∧ (update_checked compress [0x61, 0x62, 0x63] ([0x61, 0x62, 0x63] : List Nat).length
          initial_hash_values (List.replicate 16 0)).isSome = true :=
  ⟨by decide, by decide,
    (update_accesses_in_range compress [0x61, 0x62, 0x63] initial_hash_values
      (List.replicate 16 0) (by decide) (by decide)).2.1⟩

end sha512
